import Mathlib

/-!
Verification of the isocline (repline) line-editor specification.

The repository ships only the public header `include/repline.h`; the
implementation sources are not present.  All definitions below are therefore
shallow embeddings modelled from the specification (and from the behaviour
documented in the header comments), as noted in each doc comment.
-/

namespace Repline

/-! ## UTF-8 code points and byte sequences -/

/-- Modelled from the spec: a valid Unicode scalar value (code point):
below 0x110000 and not a surrogate. -/
def ValidCp (c : Nat) : Prop := c < 1114112 ∧ (c < 55296 ∨ 57344 ≤ c)

instance (c : Nat) : Decidable (ValidCp c) := by
  unfold ValidCp; infer_instance

/-- Modelled from the spec: the standard UTF-8 encoding of a code point as a
list of bytes (1 to 4 bytes). -/
def utf8Encode (c : Nat) : List Nat :=
  if c < 128 then [c]
  else if c < 2048 then [192 + c / 64, 128 + c % 64]
  else if c < 65536 then [224 + c / 4096, 128 + c / 64 % 64, 128 + c % 64]
  else [240 + c / 262144, 128 + c / 4096 % 64, 128 + c / 64 % 64, 128 + c % 64]

/-- A UTF-8 continuation byte: in the range [0x80, 0xC0). -/
def isCont (b : Nat) : Bool := decide (128 ≤ b) && decide (b < 192)

/-- A byte list is valid UTF-8 when it is a concatenation of encodings of
valid code points. -/
inductive ValidUtf8 : List Nat → Prop
  | nil : ValidUtf8 []
  | cons (c : Nat) (rest : List Nat) :
      ValidCp c → ValidUtf8 rest → ValidUtf8 (utf8Encode c ++ rest)

/-! ## Code-point boundary scanning

Modelled from the spec (§4.2, §9 "UTF-8 navigation"): stepping to the previous
or next code point works on byte offsets and skips UTF-8 continuation bytes. -/

/-- Scan backwards from byte position `p` over continuation bytes to the
start of the previous code point.  Returns 0 at the start of the buffer. -/
def prevB (bs : List Nat) : Nat → Nat
  | 0 => 0
  | p + 1 => if isCont (bs.getD p 0) then prevB bs p else p

/-- Auxiliary forward scan: starting at `q`, skip continuation bytes. -/
def nextBAux (bs : List Nat) : Nat → Nat → Nat
  | 0, q => q
  | fuel + 1, q =>
      if q < bs.length ∧ isCont (bs.getD q 0) = true then nextBAux bs fuel (q + 1)
      else q

instance (bs : List Nat) (q : Nat) : Decidable (q < bs.length ∧ isCont (bs.getD q 0) = true) :=
  inferInstance

/-- Scan forwards from byte position `p` to the start of the next code point
(or to the end of the buffer). -/
def nextB (bs : List Nat) (p : Nat) : Nat := nextBAux bs bs.length (p + 1)

/-! ## Executable UTF-8 validation and boundary tests

The editor applies buffer-replacing data from its collaborators (history
entries on Ctrl-P/Ctrl-N or a search commit, completion candidates on Tab).
Spec §7 requires the editor to recover internally from malformed collaborator
data, and §8.1 keeps the buffer valid UTF-8 unconditionally, so the step
function checks such data before splicing it in; well-formed data (in
particular every entry committed by the editor itself) always passes. -/

/-- The byte length of a UTF-8 sequence, from its lead byte (0 for a stray
continuation byte). -/
def utf8SeqLen (b : Nat) : Nat :=
  if b < 128 then 1 else if b < 192 then 0 else if b < 224 then 2
  else if b < 240 then 3 else 4

/-- Decode the code point with lead byte `b` and following bytes `bs`. -/
def cpAt (b : Nat) (bs : List Nat) : Nat :=
  if b < 128 then b
  else if b < 224 then (b - 192) * 64 + (bs.getD 0 0 - 128)
  else if b < 240 then (b - 224) * 4096 + (bs.getD 0 0 - 128) * 64 + (bs.getD 1 0 - 128)
  else (b - 240) * 262144 + (bs.getD 0 0 - 128) * 4096 + (bs.getD 1 0 - 128) * 64
    + (bs.getD 2 0 - 128)

/-- Fuel-driven UTF-8 validation: decode one code point, check that it is a
valid scalar value whose canonical encoding reproduces the consumed bytes
(rejecting overlong forms and surrogates), and continue. -/
def validUtf8BAux : Nat → List Nat → Bool
  | _, [] => true
  | 0, _ :: _ => false
  | fuel + 1, b :: bs =>
      decide (ValidCp (cpAt b bs)) &&
      (utf8Encode (cpAt b bs) == b :: bs.take (utf8SeqLen b - 1)) &&
      validUtf8BAux fuel (bs.drop (utf8SeqLen b - 1))

/-- Executable UTF-8 validity test. -/
def validUtf8B (l : List Nat) : Bool := validUtf8BAux l.length l

/-- Executable code-point boundary test: the end of the buffer, or a
position carrying a non-continuation byte. -/
def boundaryB (bs : List Nat) (p : Nat) : Bool :=
  (p == bs.length) || (decide (p < bs.length) && !(isCont (bs.getD p 0)))

/-! ## Word classification and word-granularity scanning

Modelled from the spec (§4.2): a word is a maximal run of letter/digit
codepoints plus the underscore.  The classification is per code point: a
boundary position holds the lead byte, which for ASCII *is* the code point
(letters, digits, underscore), and every non-ASCII code point is classified
as a word constituent — an accepted simplification of the Unicode category
table that still depends only on the code point, never on trailing bytes. -/

/-- Word-constituent test on the lead byte of a code point. -/
def isWordByte (b : Nat) : Bool :=
  decide (128 ≤ b) || (decide (97 ≤ b) && decide (b ≤ 122)) ||
  (decide (65 ≤ b) && decide (b ≤ 90)) || (decide (48 ≤ b) && decide (b ≤ 57)) ||
  decide (b = 95)

/-- Move left over code points that are not word constituents. -/
def skipSepLeft (bs : List Nat) : Nat → Nat → Nat
  | 0, k => k
  | fuel + 1, k =>
      if k = 0 then 0
      else if isWordByte (bs.getD (prevB bs k) 0) then k
      else skipSepLeft bs fuel (prevB bs k)

/-- Move left over word-constituent code points. -/
def skipWordLeft (bs : List Nat) : Nat → Nat → Nat
  | 0, k => k
  | fuel + 1, k =>
      if k = 0 then 0
      else if isWordByte (bs.getD (prevB bs k) 0) then skipWordLeft bs fuel (prevB bs k)
      else k

/-- The position of the start of the word left of the cursor: skip
separators, then the word itself. -/
def wordLeftPos (bs : List Nat) (k : Nat) : Nat :=
  skipWordLeft bs bs.length (skipSepLeft bs bs.length k)

/-- Move right over code points that are not word constituents. -/
def skipSepRight (bs : List Nat) : Nat → Nat → Nat
  | 0, k => k
  | fuel + 1, k =>
      if k < bs.length then
        if isWordByte (bs.getD k 0) then k
        else skipSepRight bs fuel (nextB bs k)
      else k

/-- Move right over word-constituent code points. -/
def skipWordRight (bs : List Nat) : Nat → Nat → Nat
  | 0, k => k
  | fuel + 1, k =>
      if k < bs.length then
        if isWordByte (bs.getD k 0) then skipWordRight bs fuel (nextB bs k)
        else k
      else k

/-- The position of the end of the word right of the cursor: skip
separators, then the word itself. -/
def wordRightPos (bs : List Nat) (k : Nat) : Nat :=
  skipWordRight bs bs.length (skipSepRight bs bs.length k)

/-! ## Editor state and key events

Modelled from the spec (§3 EditBuffer, §3 KeyEvent, §4.2, §4.7): the edit
buffer is a UTF-8 byte sequence with a byte cursor; undo is a stack of
snapshots coalesced across runs of adjacent printable insertions. -/

/-- Modelled from the spec: the in-memory editor state of one readline call.
`undo` is the stack of (buffer, cursor) snapshots, newest first;
`coalescing` is true inside a run of adjacent printable insertions. -/
structure EditorSt where
  buf : List Nat
  cur : Nat
  undo : List (List Nat × Nat)
  coalescing : Bool
  deriving DecidableEq

def initEd : EditorSt := ⟨[], 0, [], false⟩

/-- Modelled from the spec (§3 CompletionSet): a completion candidate with
its display text, completion text and delete range in bytes around the
cursor. -/
structure Completion where
  display : List Nat
  completion : List Nat
  deleteBefore : Nat
  deleteAfter : Nat
  deriving DecidableEq

/-- Take a completion: replace its delete range around the cursor by the
completion text, leaving the cursor at the end of the inserted text. -/
def applyCompletion (st : EditorSt) (c : Completion) : EditorSt :=
  let db := min c.deleteBefore st.cur
  let da := min c.deleteAfter (st.buf.length - st.cur)
  { st with
      buf := st.buf.take (st.cur - db) ++ c.completion ++ st.buf.drop (st.cur + da),
      cur := st.cur - db + c.completion.length,
      coalescing := false }

/-- Validation of a completion before it is spliced into the buffer: the
delete range lies inside the buffer on code-point boundaries and the
completion text is valid UTF-8 (§7: the editor recovers internally from
completion callback mis-use; the default `complete_word` path always
satisfies this since its delete range is a whole word span). -/
def completionFits (bs : List Nat) (k : Nat) (c : Completion) : Bool :=
  decide (c.deleteBefore ≤ k) && decide (k + c.deleteAfter ≤ bs.length) &&
  boundaryB bs (k - c.deleteBefore) && boundaryB bs (k + c.deleteAfter) &&
  validUtf8B c.completion

/-- Modelled from the spec (§3 KeyEvent, §6 key bindings, §4.5, §4.6):
decoded key events consumed by the editor loop.  `histPrev`/`histNext`
carry the entry that the History collaborator returns for Ctrl-P/Up or
Ctrl-N/Down (§4.4 `nav_prev`/`nav_next`); `searchCommit` carries the entry
committed from an incremental history search (§4.6); `tabComplete` carries
the single candidate (or the menu selection) whose insertion Tab commits
(§4.5). -/
inductive KeyEvent
  | insert (c : Nat)
  | backspace
  | ctrlD
  | left
  | right
  | home
  | endKey
  | wordLeft
  | wordRight
  | killToStart
  | killToEnd
  | deleteWordBefore
  | deleteWordAfter
  | transpose
  | histPrev (s : List Nat)
  | histNext (s : List Nat)
  | ctrlR
  | searchCommit (s : List Nat)
  | tabComplete (c : Completion)
  | undo
  | enter
  | ctrlC
  | ioError
  deriving DecidableEq

/-- A code point the editor will insert into the buffer: a valid scalar value
that is printable, tab or newline (control characters below U+0020 other than
tab and newline never enter the buffer, per §3). -/
def allowedCp (c : Nat) : Bool :=
  decide (ValidCp c) && (decide (32 ≤ c) || decide (c = 9) || decide (c = 10))

/-- Byte slice `[a, b)` of a list. -/
def slice (l : List Nat) (a b : Nat) : List Nat := (l.drop a).take (b - a)

/-- Buffer-level semantics of one key event (the editing dispatch of §4.2,
§4.4 history recall, §4.6 search commit); exit events (`enter`, `ctrlC`,
`ioError`) and mode entry (`ctrlR`) do not touch the buffer; Tab completion
is handled in `stepEd` through `applyCompletion`. -/
def applyEdit (e : KeyEvent) (b : List Nat) (k : Nat) : List Nat × Nat :=
  match e with
  | .insert c =>
      if allowedCp c then (b.take k ++ utf8Encode c ++ b.drop k, k + (utf8Encode c).length)
      else (b, k)
  | .backspace => (b.take (prevB b k) ++ b.drop k, prevB b k)
  | .ctrlD =>
      if k < b.length then (b.take k ++ b.drop (nextB b k), k) else (b, k)
  | .left => (b, prevB b k)
  | .right => if k < b.length then (b, nextB b k) else (b, k)
  | .home => (b, 0)
  | .endKey => (b, b.length)
  | .wordLeft => (b, wordLeftPos b k)
  | .wordRight => (b, wordRightPos b k)
  | .killToStart => (b.drop k, 0)
  | .killToEnd => (b.take k, k)
  | .deleteWordBefore => (b.take (wordLeftPos b k) ++ b.drop k, wordLeftPos b k)
  | .deleteWordAfter => (b.take k ++ b.drop (wordRightPos b k), k)
  | .transpose =>
      let p1 := prevB b k
      let p0 := prevB b p1
      if p0 < p1 ∧ p1 < k then
        (b.take p0 ++ slice b p1 k ++ slice b p0 p1 ++ b.drop k, k)
      else (b, k)
  | .histPrev s | .histNext s | .searchCommit s =>
      if validUtf8B s then (s, s.length) else (b, k)
  | .tabComplete _ | .ctrlR | .undo | .enter | .ctrlC | .ioError => (b, k)

/-- Does this event mutate the buffer (and therefore capture an undo
snapshot)?  Insertions and completions are handled separately (coalescing,
validation). -/
def isMutating (e : KeyEvent) : Bool :=
  match e with
  | .backspace | .ctrlD | .killToStart | .killToEnd
  | .deleteWordBefore | .deleteWordAfter | .transpose
  | .histPrev _ | .histNext _ | .searchCommit _ => true
  | _ => false

/-- Does this event merely navigate?  Navigation commits a coalescing
boundary (§4.2) but captures no snapshot. -/
def isNavigation (e : KeyEvent) : Bool :=
  match e with
  | .left | .right | .home | .endKey | .wordLeft | .wordRight => true
  | _ => false

/-- Modelled from the spec (§4.2 Undo/redo, §4.5, §4.7): the full editor
step.  Mutating events (including history recall and search commit) capture
an undo snapshot; runs of adjacent printable insertions are coalesced into a
single snapshot; navigation and mode entry commit a coalescing boundary;
Tab completion applies a validated candidate through `applyCompletion`;
`undo` pops and restores the most recent snapshot. -/
def stepEd (st : EditorSt) (e : KeyEvent) : EditorSt :=
  match e with
  | .insert c =>
      if allowedCp c then
        let undo' := if st.coalescing then st.undo else (st.buf, st.cur) :: st.undo
        let bk := applyEdit (.insert c) st.buf st.cur
        ⟨bk.1, bk.2, undo', true⟩
      else st
  | .tabComplete c =>
      if completionFits st.buf st.cur c then
        let st2 := applyCompletion st c
        ⟨st2.buf, st2.cur, (st.buf, st.cur) :: st.undo, false⟩
      else st
  | .undo =>
      match st.undo with
      | [] => { st with coalescing := false }
      | (b, k) :: rest => ⟨b, k, rest, false⟩
  | .enter | .ctrlC | .ioError => st
  | e =>
      if isMutating e then
        let bk := applyEdit e st.buf st.cur
        ⟨bk.1, bk.2, (st.buf, st.cur) :: st.undo, false⟩
      else
        let bk := applyEdit e st.buf st.cur
        ⟨bk.1, bk.2, st.undo, false⟩

/-- Replay a sequence of key events against an editor state. -/
def replay (st : EditorSt) (es : List KeyEvent) : EditorSt := es.foldl stepEd st

/-! ## The EditBuffer invariant (claim C2) -/

/-- The cursor sits on a code-point boundary of a valid UTF-8 buffer:
the buffer splits into two valid UTF-8 parts at the cursor. -/
def BufOk (b : List Nat) (k : Nat) : Prop :=
  ∃ l r, b = l ++ r ∧ ValidUtf8 l ∧ ValidUtf8 r ∧ k = l.length

/-- Full editor invariant: the live buffer and every undo snapshot satisfy
the boundary invariant. -/
def EdOk (st : EditorSt) : Prop :=
  BufOk st.buf st.cur ∧ ∀ s ∈ st.undo, BufOk s.1 s.2

/-! ## Undo exhausts to the initial buffer (claim C6) -/

/-- Apply undo repeatedly until the undo stack is exhausted. -/
def undoAllAux : List (List Nat × Nat) → EditorSt → EditorSt
  | [], st => st
  | (b, k) :: rest, _ => undoAllAux rest ⟨b, k, rest, false⟩

def undoAll (st : EditorSt) : EditorSt := undoAllAux st.undo st

/-- The undo-stack invariant relative to the initial buffer `b0`: the deepest
snapshot (if any) records `b0`; with an empty stack the live buffer is `b0`;
a coalescing run always has its pre-run snapshot on the stack. -/
def UndoOk (b0 : List Nat) (st : EditorSt) : Prop :=
  (st.undo = [] → st.buf = b0) ∧
  (st.undo ≠ [] → (st.undo.getLast?).map Prod.fst = some b0) ∧
  (st.coalescing = true → st.undo ≠ [])

/-! ## History store (claims C4, C5)

Modelled from the spec (§3 HistoryStore, §4.4) and the header comments of
`rp_set_history`, `rp_history_add`, `rp_enable_history_duplicates`:
an ordered list of byte-string entries (oldest first), bounded by
`maxEntries`; with duplicates disabled, adding an entry byte-equal to the
most recent one is a no-op; adding past capacity drops the oldest entry. -/

structure History where
  entries : List (List Nat)
  maxEntries : Nat
  allowDups : Bool
  deriving DecidableEq

/-- Modelled from the spec: `rp_history_add` applies the duplicate policy and
trims to capacity by dropping oldest entries. -/
def rp_history_add (h : History) (entry : List Nat) : History :=
  if h.allowDups = false ∧ h.entries.getLast? = some entry then h
  else
    { h with entries :=
        (h.entries ++ [entry]).drop ((h.entries ++ [entry]).length - h.maxEntries) }

/-! ## The readline call: terminal restoration and results (claims C1, C3)

Modelled from the spec (§4.7 Editor, §7 Error kinds) and the header comment
of `rp_readline`: on entry the terminal is put into raw mode; on every exit
path (commit, cancel, EOF, error, input exhausted) the prior mode is
restored and a fresh line is emitted; Enter commits the buffer (which is
then auto-added to the history), Ctrl-C cancels leaving history untouched,
Ctrl-D on an empty buffer is end-of-input. -/

structure TermMode where
  raw : Bool
  echo : Bool
  deriving DecidableEq

structure Terminal where
  mode : TermMode
  out : List Nat
  deriving DecidableEq

/-- Raw mode as set on entry to a readline call. -/
def rawMode : TermMode := ⟨true, false⟩

/-- Result of a readline call. -/
inductive RlResult
  | committed (s : List Nat)
  | cancelled
  | endOfInput
  | error
  deriving DecidableEq

/-- The value a readline result carries to the caller. -/
def RlResult.value : RlResult → Option (List Nat)
  | .committed s => some s
  | .cancelled => none
  | .endOfInput => none
  | .error => none

/-- Exit sequence of the readline call: restore the saved terminal mode and
leave the cursor on a fresh line below the final paint. -/
def finishTerm (t : Terminal) (saved : TermMode) : Terminal := ⟨saved, t.out ++ [10]⟩

/-- Repaint after an editing step (modelled as emitting the buffer bytes). -/
def repaint (t : Terminal) (st : EditorSt) : Terminal := ⟨t.mode, t.out ++ st.buf⟩

/-- Modelled from the spec (§4.7): the editor loop of a readline call.
Consumes key events until an exit path is taken; every exit path runs
`finishTerm`. -/
def rlLoop (saved : TermMode) (t : Terminal) (st : EditorSt) (h : History) :
    List KeyEvent → RlResult × Terminal × History
  | [] => (.endOfInput, finishTerm t saved, h)
  | e :: es =>
      match e with
      | .enter => (.committed st.buf, finishTerm t saved, rp_history_add h st.buf)
      | .ctrlC => (.cancelled, finishTerm t saved, h)
      | .ioError => (.error, finishTerm t saved, h)
      | .ctrlD =>
          if st.buf = [] then (.endOfInput, finishTerm t saved, h)
          else rlLoop saved (repaint t (stepEd st .ctrlD)) (stepEd st .ctrlD) h es
      | e => rlLoop saved (repaint t (stepEd st e)) (stepEd st e) h es

/-- Modelled from the spec: `rp_readline` saves the terminal mode, enters raw
mode, runs the editor loop on an empty buffer, and returns the result
together with the final terminal and history states. -/
def rp_readline (t : Terminal) (h : History) (es : List KeyEvent) :
    RlResult × Terminal × History :=
  rlLoop t.mode ⟨rawMode, t.out⟩ initEd h es

/-! ## Completion engine (claims C8, C9)

Modelled from the spec (§3 CompletionSet, §4.5) and the header comments of
`rp_add_completion_ex` and `rp_add_completion`: candidates accumulate in
insertion order; a candidate carries a delete range in bytes around the
cursor; the candidate count is capped (default 1000); an `add_ex` whose
delete range falls outside the buffer is ignored and returns the stop
signal. -/

structure CompletionEnv where
  input : List Nat
  cursor : Nat
  cands : List Completion
  stopped : Bool
  deriving DecidableEq

/-- The default cap on accumulated candidates. -/
def candidateCap : Nat := 1000

/-- Modelled from the spec (§7 CompletionCallbackMisuse) and the header
comment of `rp_add_completion_ex`: primitive completion.  `deleteBefore`
bytes are deleted before the cursor and `deleteAfter` bytes after it when
the completion is taken; a call whose ranges fall outside the current buffer
is ignored and returns the stop signal `false`. -/
def rp_add_completion_ex (env : CompletionEnv) (display completion : List Nat)
    (deleteBefore deleteAfter : Int) : CompletionEnv × Bool :=
  if deleteBefore < 0 ∨ deleteBefore > (env.cursor : Int) ∨ deleteAfter < 0 ∨
      deleteAfter > (env.input.length : Int) - (env.cursor : Int) then (env, false)
  else if env.stopped then (env, false)
  else
    let stop2 := decide (candidateCap ≤ env.cands.length + 1)
    ({ env with
        cands := env.cands ++
          [⟨display, completion, deleteBefore.toNat, deleteAfter.toNat⟩],
        stopped := stop2 },
      !stop2)

/-- The interaction mode of the editor (§3 ModeState; the search mode is not
needed for the claims below). -/
inductive Mode
  | editing
  | menu (cands : List Completion) (selected : Nat)
  deriving DecidableEq

/-- Modelled from the spec (§4.5 Menu behavior): handling of a completion
request that produced `cands`.  No candidate: beep, stay in editing; exactly
one: insert it immediately and return to editing with no menu; otherwise
open the menu.  The returned Bool is the beep. -/
def handleTab (st : EditorSt) (cands : List Completion) : EditorSt × Mode × Bool :=
  match cands with
  | [] => (st, Mode.editing, true)
  | [c] => (applyCompletion st c, Mode.editing, false)
  | cs => (st, Mode.menu cs 0, false)

/-! ## Completion word transform (claim C7)

Modelled from the spec (§4.5 Word transform) and the header comments of
`rp_complete_word` / `rp_complete_quoted_word`: the active word behind the
cursor is computed from the non-word characters (default space, CR, tab,
LF), the escaping character (default backslash) and the quote characters
(default single and double quote); the extracted word is unescaped to form
the callback argument; on `add` the candidate is re-escaped minimally so the
inserted text preserves the shell-like lexical structure. -/

/-- The default non-word bytes: space, CR, tab, LF. -/
def nonWordByte (b : Nat) : Bool := decide (b = 32) || decide (b = 13) ||
  decide (b = 9) || decide (b = 10)

/-- The default quote bytes: double quote and single quote. -/
def quoteByte (b : Nat) : Bool := decide (b = 34) || decide (b = 39)

/-- The default escaping byte: backslash. -/
def escapeByte : Nat := 92

/-- A byte that needs escaping inside a word. -/
def isSpecialByte (b : Nat) : Bool := nonWordByte b || quoteByte b ||
  decide (b = escapeByte)

/-- Minimal escaping applied by the word transform when a candidate is
inserted: escape exactly the special bytes. -/
def escapeWord : List Nat → List Nat
  | [] => []
  | b :: bs => (if isSpecialByte b then [escapeByte, b] else [b]) ++ escapeWord bs

/-- Unescaping applied when the word behind the cursor is extracted: each
escaping byte is dropped and the following byte taken literally. -/
def unescapeWord : List Nat → List Nat
  | [] => []
  | b :: bs =>
      if b = escapeByte then
        match bs with
        | [] => []
        | b2 :: bs2 => b2 :: unescapeWord bs2
      else b :: unescapeWord bs

/-- Is this byte sequence a single (possibly escaped) word?  Escape pairs
are allowed; unescaped special bytes terminate a word. -/
def wordish : List Nat → Bool
  | [] => true
  | b :: bs =>
      if b = escapeByte then
        match bs with
        | [] => false
        | _ :: bs2 => wordish bs2
      else !isSpecialByte b && wordish bs

/-- The active word behind the cursor when no quote is open at the cursor:
the longest word-like suffix of the text before the cursor.  An unescaped
quote byte then belongs to an already-closed quoted region and terminates
the plain-word scan. -/
def extractWord : List Nat → List Nat
  | [] => []
  | b :: t => if wordish (b :: t) then b :: t else extractWord t

/-- Left-to-right lexer for the quoting state at the cursor (§4.5: the
active word is computed using the quote characters): returns
`some (q, j)` when the cursor sits inside a quoted region opened by quote
byte `q` at byte index `j`, and `none` otherwise.  The escaping byte
escapes the following byte both outside and inside quotes, so an escaped
quote neither opens nor closes a region. -/
def quoteScan : List Nat → Nat → Option (Nat × Nat) → Option (Nat × Nat)
  | [], _, st => st
  | b :: bs, i, none =>
      if quoteByte b then quoteScan bs (i + 1) (some (b, i))
      else if b = escapeByte then
        match bs with
        | [] => none
        | _ :: bs2 => quoteScan bs2 (i + 2) none
      else quoteScan bs (i + 1) none
  | b :: bs, i, some (q, j) =>
      if b = q then quoteScan bs (i + 1) none
      else if b = escapeByte then
        match bs with
        | [] => some (q, j)
        | _ :: bs2 => quoteScan bs2 (i + 2) (some (q, j))
      else quoteScan bs (i + 1) (some (q, j))

/-- The open quote governing the cursor position, if any. -/
def openQuote (l : List Nat) : Option (Nat × Nat) := quoteScan l 0 none

/-- Minimal escaping applied inside a quoted region on re-insertion: escape
the governing quote byte and the escaping byte. -/
def escapeQuoted (q : Nat) : List Nat → List Nat
  | [] => []
  | b :: bs =>
      (if b = q || b = escapeByte then [escapeByte, b] else [b]) ++ escapeQuoted q bs

/-- Committing the unmodified candidate through the word transform (§4.5(c)):
if the word is quoted, the span from the opening quote is replaced by the
re-quoted candidate with the quote closed; otherwise the word span is
deleted and the re-escaped unescaped word is inserted in its place.
`l` is the text before the cursor. -/
def replaceWordSpan (l : List Nat) : List Nat :=
  match openQuote l with
  | some (q, j) =>
      l.take j ++ (q :: escapeQuoted q (unescapeWord (l.drop (j + 1)))) ++ [q]
  | none =>
      l.take (l.length - (extractWord l).length) ++
        escapeWord (unescapeWord (extractWord l))

/-! ## UTF-8 convenience helpers (claim C10)

Modelled from the header comments of `rp_prev_char` and `rp_next_char`:
`rp_prev_char s pos` returns -1 if `pos <= 0` or `pos > strlen(s)`, and
`rp_next_char s pos` returns -1 if `pos < 0` or `pos >= strlen(s)`;
otherwise they return the byte position of the adjacent code point. -/

def rp_prev_char (s : List Nat) (pos : Int) : Int :=
  if pos ≤ 0 ∨ pos > (s.length : Int) then -1
  else ((prevB s pos.toNat : Nat) : Int)

def rp_next_char (s : List Nat) (pos : Int) : Int :=
  if pos < 0 ∨ pos ≥ (s.length : Int) then -1
  else ((nextB s pos.toNat : Nat) : Int)

/-! ## Lemmas and theorems -/

lemma isCont_iff (b : Nat) : isCont b = true ↔ 128 ≤ b ∧ b < 192 := by
  simp [isCont]

lemma isCont_eq_false_iff (b : Nat) : isCont b = false ↔ b < 128 ∨ 192 ≤ b := by
  simp [isCont]; omega

lemma utf8Encode_length_pos (c : Nat) : 0 < (utf8Encode c).length := by
  by_cases h1 : c < 128
  · simp [utf8Encode, h1]
  · by_cases h2 : c < 2048
    · simp [utf8Encode, h1, h2]
    · by_cases h3 : c < 65536
      · simp [utf8Encode, h1, h2, h3]
      · simp [utf8Encode, h1, h2, h3]

lemma utf8Encode_ne_nil (c : Nat) : utf8Encode c ≠ [] := by
  have := utf8Encode_length_pos c
  intro h
  simp [h] at this

/-- The first byte of an encoding is never a continuation byte. -/
lemma utf8Encode_head_not_cont (c : Nat) :
    isCont ((utf8Encode c).getD 0 0) = false := by
  rw [isCont_eq_false_iff]
  by_cases h1 : c < 128
  · simp [utf8Encode, h1]
  · by_cases h2 : c < 2048
    · simp [utf8Encode, h1, h2]
    · by_cases h3 : c < 65536
      · simp [utf8Encode, h1, h2, h3]; omega
      · simp [utf8Encode, h1, h2, h3]; omega

/-- All bytes after the first in an encoding are continuation bytes. -/
lemma utf8Encode_tail_cont (c i : Nat) (h1 : 0 < i)
    (h2 : i < (utf8Encode c).length) :
    isCont ((utf8Encode c).getD i 0) = true := by
  rw [isCont_iff]
  by_cases ha : c < 128
  · simp [utf8Encode, ha] at h2; omega
  · by_cases hb : c < 2048
    · simp [utf8Encode, ha, hb] at h2 ⊢
      have hi : i = 1 := by omega
      subst hi
      have := Nat.mod_lt c (show 0 < 64 by omega)
      simp
      omega
    · by_cases hc : c < 65536
      · simp [utf8Encode, ha, hb, hc] at h2 ⊢
        have hi : i = 1 ∨ i = 2 := by omega
        have hm1 := Nat.mod_lt (c / 64) (show 0 < 64 by omega)
        have hm2 := Nat.mod_lt c (show 0 < 64 by omega)
        rcases hi with hi | hi <;> subst hi <;> simp <;> omega
      · simp [utf8Encode, ha, hb, hc] at h2 ⊢
        have hi : i = 1 ∨ i = 2 ∨ i = 3 := by omega
        have hm1 := Nat.mod_lt (c / 4096) (show 0 < 64 by omega)
        have hm2 := Nat.mod_lt (c / 64) (show 0 < 64 by omega)
        have hm3 := Nat.mod_lt c (show 0 < 64 by omega)
        rcases hi with hi | hi | hi <;> subst hi <;> simp <;> omega

lemma validUtf8_append {a b : List Nat} (ha : ValidUtf8 a) (hb : ValidUtf8 b) :
    ValidUtf8 (a ++ b) := by
  induction ha with
  | nil => simpa using hb
  | cons c rest hc hrest ih =>
      rw [List.append_assoc]
      exact ValidUtf8.cons c (rest ++ b) hc ih

lemma validUtf8_single {c : Nat} (hc : ValidCp c) : ValidUtf8 (utf8Encode c) := by
  have := ValidUtf8.cons c [] hc ValidUtf8.nil
  simpa using this

/-- A nonempty valid UTF-8 list decomposes as a valid part followed by the
encoding of a final code point. -/
lemma validUtf8_snoc_decomp {l : List Nat} (h : ValidUtf8 l) :
    l = [] ∨ ∃ l0 c, ValidUtf8 l0 ∧ ValidCp c ∧ l = l0 ++ utf8Encode c := by
  induction h with
  | nil => exact Or.inl rfl
  | cons c rest hc hrest ih =>
      rcases ih with h0 | ⟨r0, c2, hr0, hc2, heq⟩
      · subst h0
        refine Or.inr ⟨[], c, ValidUtf8.nil, hc, by simp⟩
      · refine Or.inr ⟨utf8Encode c ++ r0, c2, ValidUtf8.cons c r0 hc hr0, hc2, ?_⟩
        rw [heq, List.append_assoc]

lemma getD_append_left (l r : List Nat) (i : Nat) (h : i < l.length) (d : Nat) :
    (l ++ r).getD i d = l.getD i d := by
  simp [List.getD_eq_getElem?_getD, List.getElem?_append_left h]

lemma getD_append_right_ofs (l r : List Nat) (j : Nat) (d : Nat) :
    (l ++ r).getD (l.length + j) d = r.getD j d := by
  simp [List.getD_eq_getElem?_getD, List.getElem?_append_right]

lemma prevB_lt (bs : List Nat) (p : Nat) (h : 0 < p) : prevB bs p < p := by
  induction p with
  | zero => omega
  | succ n ih =>
      rw [prevB]
      split
      · rcases Nat.eq_zero_or_pos n with h0 | h0
        · subst h0; rw [prevB]; omega
        · exact Nat.lt_succ_of_lt (ih h0)
      · omega

/-- Scanning back from the end of an encoding lands exactly at its start. -/
lemma prevB_encoding (l0 : List Nat) (c : Nat) (r : List Nat) (k : Nat)
    (hk1 : 1 ≤ k) (hk2 : k ≤ (utf8Encode c).length) :
    prevB (l0 ++ (utf8Encode c ++ r)) (l0.length + k) = l0.length := by
  induction k with
  | zero => omega
  | succ n ih =>
      have hstep : l0.length + (n + 1) = (l0.length + n) + 1 := by omega
      rw [hstep, prevB]
      rcases Nat.eq_zero_or_pos n with h0 | h0
      · subst h0
        have hbyte : (l0 ++ (utf8Encode c ++ r)).getD (l0.length + 0) 0
            = (utf8Encode c ++ r).getD 0 0 := getD_append_right_ofs _ _ _ _
        have hhead : (utf8Encode c ++ r).getD 0 0 = (utf8Encode c).getD 0 0 :=
          getD_append_left _ _ _ (utf8Encode_length_pos c) _
        simp only [Nat.add_zero] at hbyte
        rw [Nat.add_zero, hbyte, hhead, utf8Encode_head_not_cont]
        simp
      · have hbyte : (l0 ++ (utf8Encode c ++ r)).getD (l0.length + n) 0
            = (utf8Encode c ++ r).getD n 0 := getD_append_right_ofs _ _ _ _
        have hin : n < (utf8Encode c).length := by omega
        have htail : (utf8Encode c ++ r).getD n 0 = (utf8Encode c).getD n 0 :=
          getD_append_left _ _ _ hin _
        rw [hbyte, htail, utf8Encode_tail_cont c n h0 hin]
        simp only [if_pos rfl]
        exact ih h0 (by omega)

/-- The generic stopping lemma for the forward scanner: if all positions from
`q` up to `m` hold continuation bytes and `m` is a stopping position, the scan
starting at `q` returns `m`. -/
lemma nextBAux_scan (bs : List Nat) (m : Nat)
    (hstop : m = bs.length ∨ isCont (bs.getD m 0) = false) :
    ∀ fuel q, (∀ i, q ≤ i → i < m → i < bs.length ∧ isCont (bs.getD i 0) = true) →
      q ≤ m → m - q ≤ fuel → nextBAux bs fuel q = m := by
  intro fuel
  induction fuel with
  | zero =>
      intro q _ hqm hfuel
      have : q = m := by omega
      subst this; rfl
  | succ n ih =>
      intro q hcont hqm hfuel
      rcases Nat.eq_or_lt_of_le hqm with heq | hlt
      · subst heq
        rw [nextBAux]
        rcases hstop with hs | hs
        · rw [if_neg]; intro hcond; omega
        · rw [if_neg]; intro hcond; rw [hs] at hcond; exact Bool.false_ne_true hcond.2
      · have hq := hcont q (Nat.le_refl q) hlt
        rw [nextBAux, if_pos hq]
        exact ih (q + 1) (fun i h1 h2 => hcont i (by omega) h2) (by omega) (by omega)

/-- Scanning forward from the start of an encoding lands at its end
(which is either the start of the following code point or the buffer end). -/
lemma nextB_encoding (l : List Nat) (c : Nat) (r : List Nat) (hr : ValidUtf8 r) :
    nextB (l ++ (utf8Encode c ++ r)) l.length = l.length + (utf8Encode c).length := by
  set bs := l ++ (utf8Encode c ++ r) with hbs
  have hlen : bs.length = l.length + (utf8Encode c).length + r.length := by
    simp [hbs]; omega
  have hk := utf8Encode_length_pos c
  apply nextBAux_scan
  · rcases hr with _ | ⟨c2, r2, hc2, hr2⟩
    · left; simp [hbs]
    · right
      have h1 : (utf8Encode c ++ (utf8Encode c2 ++ r2)).getD ((utf8Encode c).length + 0) 0
          = (utf8Encode c2 ++ r2).getD 0 0 := getD_append_right_ofs _ _ _ _
      have h2 : bs.getD (l.length + ((utf8Encode c).length + 0)) 0
          = (utf8Encode c ++ (utf8Encode c2 ++ r2)).getD ((utf8Encode c).length + 0) 0 :=
        getD_append_right_ofs _ _ _ _
      have h3 : (utf8Encode c2 ++ r2).getD 0 0 = (utf8Encode c2).getD 0 0 :=
        getD_append_left _ _ _ (utf8Encode_length_pos c2) _
      have h4 : l.length + ((utf8Encode c).length + 0) = l.length + (utf8Encode c).length := by
        omega
      rw [← h4, h2, h1, h3]
      exact utf8Encode_head_not_cont c2
  · intro i h1 h2
    have hi : i < bs.length := by omega
    refine ⟨hi, ?_⟩
    obtain ⟨j, hj⟩ : ∃ j, i = l.length + j := ⟨i - l.length, by omega⟩
    subst hj
    have hjb : j < (utf8Encode c).length := by omega
    have hb1 : bs.getD (l.length + j) 0 = (utf8Encode c ++ r).getD j 0 :=
      getD_append_right_ofs _ _ _ _
    have hb2 : (utf8Encode c ++ r).getD j 0 = (utf8Encode c).getD j 0 :=
      getD_append_left _ _ _ hjb _
    rw [hb1, hb2]
    exact utf8Encode_tail_cont c j (by omega) hjb
  · omega
  · omega

lemma bufOk_nil : BufOk [] 0 := ⟨[], [], rfl, ValidUtf8.nil, ValidUtf8.nil, rfl⟩

lemma bufOk_valid {b : List Nat} {k : Nat} (h : BufOk b k) : ValidUtf8 b := by
  obtain ⟨l, r, rfl, hl, hr, rfl⟩ := h
  exact validUtf8_append hl hr

lemma bufOk_le {b : List Nat} {k : Nat} (h : BufOk b k) : k ≤ b.length := by
  obtain ⟨l, r, rfl, hl, hr, rfl⟩ := h
  simp

lemma allowedCp_validCp {c : Nat} (h : allowedCp c = true) : ValidCp c := by
  have := (Bool.and_eq_true _ _).mp h
  exact of_decide_eq_true this.1

/-- Decomposition of the buffer at a positive cursor position: the part left
of the cursor ends with the encoding of a code point, and `prevB` lands at
its start. -/
lemma bufOk_prev_decomp {b : List Nat} {k : Nat} (h : BufOk b k) (hk : 0 < k) :
    ∃ l0 c r, b = l0 ++ (utf8Encode c ++ r) ∧ ValidUtf8 l0 ∧ ValidCp c ∧
      ValidUtf8 r ∧ k = l0.length + (utf8Encode c).length ∧ prevB b k = l0.length := by
  obtain ⟨l, r, rfl, hl, hr, rfl⟩ := h
  rcases validUtf8_snoc_decomp hl with h0 | ⟨l0, c, hl0, hc, hdec⟩
  · subst h0; simp at hk
  · subst hdec
    refine ⟨l0, c, r, by rw [List.append_assoc], hl0, hc, hr, by simp, ?_⟩
    have := prevB_encoding l0 c r (utf8Encode c).length (utf8Encode_length_pos c)
      (Nat.le_refl _)
    rw [List.append_assoc]
    simpa using this

/-- Decomposition of the buffer at a cursor position strictly left of the
end: the part right of the cursor starts with the encoding of a code point,
and `nextB` lands just past it. -/
lemma bufOk_next_decomp {b : List Nat} {k : Nat} (h : BufOk b k)
    (hk : k < b.length) :
    ∃ l c r0, b = l ++ (utf8Encode c ++ r0) ∧ ValidUtf8 l ∧ ValidCp c ∧
      ValidUtf8 r0 ∧ k = l.length ∧ nextB b k = k + (utf8Encode c).length := by
  obtain ⟨l, r, rfl, hl, hr, rfl⟩ := h
  have hrne : r ≠ [] := by
    intro h0; subst h0; simp at hk
  rcases hr with _ | ⟨c, r0, hc, hr0⟩
  · exact absurd rfl hrne
  · exact ⟨l, c, r0, rfl, hl, hc, hr0, rfl, nextB_encoding l c r0 hr0⟩

lemma take_at_cursor (l r : List Nat) : (l ++ r).take l.length = l :=
  List.take_left l r

lemma drop_at_cursor (l r : List Nat) : (l ++ r).drop l.length = r :=
  List.drop_left l r

lemma validUtf8BAux_sound : ∀ (fuel : Nat) (l : List Nat),
    validUtf8BAux fuel l = true → ValidUtf8 l := by
  intro fuel
  induction fuel with
  | zero =>
      intro l hv
      cases l with
      | nil => exact ValidUtf8.nil
      | cons b bs => exact absurd hv (by rw [validUtf8BAux]; simp)
  | succ n ih =>
      intro l hv
      cases l with
      | nil => exact ValidUtf8.nil
      | cons b bs =>
          rw [validUtf8BAux] at hv
          simp only [Bool.and_eq_true, decide_eq_true_eq, beq_iff_eq] at hv
          obtain ⟨⟨hc, he⟩, hrest⟩ := hv
          have hbs : b :: bs
              = utf8Encode (cpAt b bs) ++ bs.drop (utf8SeqLen b - 1) := by
            rw [he]
            show b :: bs = b :: (bs.take (utf8SeqLen b - 1) ++ bs.drop (utf8SeqLen b - 1))
            rw [List.take_append_drop]
          rw [hbs]
          exact ValidUtf8.cons _ _ hc (ih _ hrest)

/-- The executable UTF-8 test is sound for the structural validity predicate. -/
lemma validUtf8B_sound {l : List Nat} (h : validUtf8B l = true) : ValidUtf8 l :=
  validUtf8BAux_sound l.length l h

/-- In a valid byte sequence, every position carrying a non-continuation
byte (or the end position) is a structural code-point boundary. -/
lemma validUtf8_boundary_of_not_cont {bs : List Nat} (h : ValidUtf8 bs) :
    ∀ p : Nat, p ≤ bs.length → (p = bs.length ∨ isCont (bs.getD p 0) = false) →
      BufOk bs p := by
  induction h with
  | nil =>
      intro p hp _
      have : p = 0 := by simpa using hp
      subst this
      exact bufOk_nil
  | cons c rest hc hrest ih =>
      intro p hp hb
      rcases Nat.lt_or_ge p (utf8Encode c).length with hlt | hge
      · rcases Nat.eq_zero_or_pos p with rfl | hpos
        · exact ⟨[], utf8Encode c ++ rest, rfl, ValidUtf8.nil,
            ValidUtf8.cons c rest hc hrest, rfl⟩
        · exfalso
          have hplen : p < (utf8Encode c ++ rest).length := by
            rw [List.length_append]; omega
          have hbyte : (utf8Encode c ++ rest).getD p 0 = (utf8Encode c).getD p 0 :=
            getD_append_left _ _ _ hlt _
          rcases hb with hb | hb
          · omega
          · rw [hbyte, utf8Encode_tail_cont c p hpos hlt] at hb
            exact Bool.noConfusion hb
      · obtain ⟨q, rfl⟩ : ∃ q, p = (utf8Encode c).length + q :=
          ⟨p - (utf8Encode c).length, by omega⟩
        have hq : q ≤ rest.length := by
          rw [List.length_append] at hp; omega
        have hb' : q = rest.length ∨ isCont (rest.getD q 0) = false := by
          rcases hb with hb | hb
          · left; rw [List.length_append] at hb; omega
          · right
            have hrw : (utf8Encode c ++ rest).getD ((utf8Encode c).length + q) 0
                = rest.getD q 0 := getD_append_right_ofs _ _ _ _
            rw [hrw] at hb
            exact hb
        obtain ⟨l, r, hrw, hl, hr2, hlen⟩ := ih q hq hb'
        refine ⟨utf8Encode c ++ l, r, by rw [hrw, List.append_assoc], ?_, hr2, ?_⟩
        · exact validUtf8_append (validUtf8_single hc) hl
        · rw [List.length_append]; omega

/-- The executable boundary test is sound on valid buffers. -/
lemma boundaryB_bufOk {bs : List Nat} {p : Nat} (h : ValidUtf8 bs)
    (hb : boundaryB bs p = true) : BufOk bs p := by
  rw [boundaryB] at hb
  simp only [Bool.or_eq_true, Bool.and_eq_true, beq_iff_eq, decide_eq_true_eq,
    Bool.not_eq_eq_eq_not, Bool.not_true] at hb
  rcases hb with hb | ⟨hb1, hb2⟩
  · exact validUtf8_boundary_of_not_cont h p (by omega) (Or.inl hb)
  · exact validUtf8_boundary_of_not_cont h p (by omega) (Or.inr hb2)

/-- Deleting the bytes between two code-point boundaries preserves the
boundary invariant (the cursor lands on the left boundary). -/
lemma bufOk_delete_between {b : List Nat} {p k : Nat} (hp : BufOk b p)
    (hk : BufOk b k) : BufOk (b.take p ++ b.drop k) p := by
  obtain ⟨lp, rp, hbp, hlp, _, hplen⟩ := hp
  obtain ⟨lk, rk, hbk, _, hrk, hklen⟩ := hk
  have htake : b.take p = lp := by rw [hbp, hplen]; exact take_at_cursor lp rp
  have hdrop : b.drop k = rk := by rw [hbk, hklen]; exact drop_at_cursor lk rk
  rw [htake, hdrop]
  exact ⟨lp, rk, rfl, hlp, hrk, hplen⟩

/-- Stepping to the previous code-point boundary stays on a boundary. -/
lemma prevB_bufOk {b : List Nat} {k : Nat} (h : BufOk b k) : BufOk b (prevB b k) := by
  rcases Nat.eq_zero_or_pos k with rfl | hk
  · simpa only [prevB] using h
  · obtain ⟨l0, c, r, hb2, hl0, hc, hr, _, hp⟩ := bufOk_prev_decomp h hk
    rw [hp]
    exact ⟨l0, utf8Encode c ++ r, hb2, hl0, ValidUtf8.cons c r hc hr, rfl⟩

/-- Stepping to the next code-point boundary stays on a boundary. -/
lemma nextB_bufOk {b : List Nat} {k : Nat} (h : BufOk b k) (hk : k < b.length) :
    BufOk b (nextB b k) := by
  obtain ⟨l1, c, r0, hb2, hl1, hc, hr0, hk2, hn⟩ := bufOk_next_decomp h hk
  rw [hn]
  exact ⟨l1 ++ utf8Encode c, r0, by rw [hb2, List.append_assoc],
    validUtf8_append hl1 (validUtf8_single hc), hr0, by simp [hk2]⟩

lemma skipSepLeft_bufOk (b : List Nat) : ∀ (fuel k : Nat), BufOk b k →
    BufOk b (skipSepLeft b fuel k) := by
  intro fuel
  induction fuel with
  | zero => intro k h; exact h
  | succ n ih =>
      intro k h
      rw [skipSepLeft]
      split
      · next hk => rw [← hk]; exact h
      · split
        · exact h
        · exact ih _ (prevB_bufOk h)

lemma skipWordLeft_bufOk (b : List Nat) : ∀ (fuel k : Nat), BufOk b k →
    BufOk b (skipWordLeft b fuel k) := by
  intro fuel
  induction fuel with
  | zero => intro k h; exact h
  | succ n ih =>
      intro k h
      rw [skipWordLeft]
      split
      · next hk => rw [← hk]; exact h
      · split
        · exact ih _ (prevB_bufOk h)
        · exact h

lemma wordLeftPos_bufOk {b : List Nat} {k : Nat} (h : BufOk b k) :
    BufOk b (wordLeftPos b k) :=
  skipWordLeft_bufOk b _ _ (skipSepLeft_bufOk b _ _ h)

lemma skipSepRight_bufOk (b : List Nat) : ∀ (fuel k : Nat), BufOk b k →
    BufOk b (skipSepRight b fuel k) := by
  intro fuel
  induction fuel with
  | zero => intro k h; exact h
  | succ n ih =>
      intro k h
      rw [skipSepRight]
      split
      · next hk =>
          split
          · exact h
          · exact ih _ (nextB_bufOk h hk)
      · exact h

lemma skipWordRight_bufOk (b : List Nat) : ∀ (fuel k : Nat), BufOk b k →
    BufOk b (skipWordRight b fuel k) := by
  intro fuel
  induction fuel with
  | zero => intro k h; exact h
  | succ n ih =>
      intro k h
      rw [skipWordRight]
      split
      · next hk =>
          split
          · exact ih _ (nextB_bufOk h hk)
          · exact h
      · exact h

lemma wordRightPos_bufOk {b : List Nat} {k : Nat} (h : BufOk b k) :
    BufOk b (wordRightPos b k) :=
  skipWordRight_bufOk b _ _ (skipSepRight_bufOk b _ _ h)

/-- Splicing a validated completion preserves the boundary invariant. -/
lemma applyCompletion_bufOk (st : EditorSt) (c : Completion)
    (h : BufOk st.buf st.cur) (hfit : completionFits st.buf st.cur c = true) :
    BufOk (applyCompletion st c).buf (applyCompletion st c).cur := by
  rw [completionFits] at hfit
  simp only [Bool.and_eq_true, decide_eq_true_eq] at hfit
  obtain ⟨⟨⟨⟨hdb, hda⟩, hb1⟩, hb2⟩, hcomp⟩ := hfit
  have hvalid := bufOk_valid h
  obtain ⟨l1, r1, hsp1, hl1, _, hlen1⟩ := boundaryB_bufOk hvalid hb1
  obtain ⟨l2, r2, hsp2, _, hr2, hlen2⟩ := boundaryB_bufOk hvalid hb2
  have hda2 : c.deleteAfter ≤ st.buf.length - st.cur := by omega
  have htake : st.buf.take (st.cur - c.deleteBefore) = l1 := by
    rw [hsp1, hlen1]; exact take_at_cursor l1 r1
  have hdrop : st.buf.drop (st.cur + c.deleteAfter) = r2 := by
    rw [hsp2, hlen2]; exact drop_at_cursor l2 r2
  rw [applyCompletion]
  simp only [Nat.min_eq_left hdb, Nat.min_eq_left hda2]
  rw [htake, hdrop]
  exact ⟨l1 ++ c.completion, r2, by rw [List.append_assoc],
    validUtf8_append hl1 (validUtf8B_sound hcomp), hr2, by rw [List.length_append, hlen1]⟩

/-- One buffer-level edit preserves the boundary invariant. -/
lemma applyEdit_bufOk (e : KeyEvent) (b : List Nat) (k : Nat) (h : BufOk b k) :
    BufOk (applyEdit e b k).1 (applyEdit e b k).2 := by
  obtain ⟨l, r, hb, hl, hr, hkl⟩ := h
  cases e with
  | insert c =>
      rw [applyEdit]
      split
      · next hc =>
          subst hb hkl
          rw [take_at_cursor, drop_at_cursor]
          refine ⟨l ++ utf8Encode c, r, by simp, ?_, hr, by simp⟩
          exact validUtf8_append hl (validUtf8_single (allowedCp_validCp hc))
      · exact ⟨l, r, hb, hl, hr, hkl⟩
  | backspace =>
      rw [applyEdit]
      rcases Nat.eq_zero_or_pos k with h0 | h0
      · subst h0
        simp only [prevB, List.take_zero, List.drop_zero, List.nil_append]
        exact ⟨l, r, hb, hl, hr, hkl⟩
      · obtain ⟨l0, c, r2, hb2, hl0, hc, hr2, hk2, hp⟩ :=
          bufOk_prev_decomp ⟨l, r, hb, hl, hr, hkl⟩ h0
        rw [hp]
        have htake : b.take l0.length = l0 := by
          rw [hb2]; exact take_at_cursor l0 _
        have hdrop : b.drop k = r2 := by
          rw [hb2, ← List.append_assoc, hk2]
          have : (l0 ++ utf8Encode c).length = l0.length + (utf8Encode c).length := by
            simp
          rw [← this]
          exact drop_at_cursor _ r2
        rw [htake, hdrop]
        exact ⟨l0, r2, rfl, hl0, hr2, rfl⟩
  | ctrlD =>
      rw [applyEdit]
      split
      · next hlt =>
          obtain ⟨l1, c, r0, hb2, hl1, hc, hr0, hk2, hn⟩ :=
            bufOk_next_decomp ⟨l, r, hb, hl, hr, hkl⟩ hlt
          rw [hn]
          have htake : b.take k = l1 := by
            rw [hb2, hk2]; exact take_at_cursor l1 _
          have hdrop : b.drop (k + (utf8Encode c).length) = r0 := by
            rw [hb2, ← List.append_assoc, hk2]
            have : (l1 ++ utf8Encode c).length = l1.length + (utf8Encode c).length := by
              simp
            rw [← this]
            exact drop_at_cursor _ r0
          rw [htake, hdrop]
          exact ⟨l1, r0, rfl, hl1, hr0, hk2⟩
      · exact ⟨l, r, hb, hl, hr, hkl⟩
  | left =>
      rw [applyEdit]
      rcases Nat.eq_zero_or_pos k with h0 | h0
      · subst h0
        simp only [prevB]
        exact ⟨l, r, hb, hl, hr, hkl⟩
      · obtain ⟨l0, c, r2, hb2, hl0, hc, hr2, hk2, hp⟩ :=
          bufOk_prev_decomp ⟨l, r, hb, hl, hr, hkl⟩ h0
        rw [hp]
        exact ⟨l0, utf8Encode c ++ r2, hb2, hl0, ValidUtf8.cons c r2 hc hr2, rfl⟩
  | right =>
      rw [applyEdit]
      split
      · next hlt =>
          obtain ⟨l1, c, r0, hb2, hl1, hc, hr0, hk2, hn⟩ :=
            bufOk_next_decomp ⟨l, r, hb, hl, hr, hkl⟩ hlt
          rw [hn]
          refine ⟨l1 ++ utf8Encode c, r0, by rw [hb2, List.append_assoc],
            validUtf8_append hl1 (validUtf8_single hc), hr0, by simp [hk2]⟩
      · exact ⟨l, r, hb, hl, hr, hkl⟩
  | home =>
      rw [applyEdit]
      exact ⟨[], b, by simp, ValidUtf8.nil, bufOk_valid ⟨l, r, hb, hl, hr, hkl⟩, rfl⟩
  | endKey =>
      rw [applyEdit]
      exact ⟨b, [], by simp, bufOk_valid ⟨l, r, hb, hl, hr, hkl⟩, ValidUtf8.nil, rfl⟩
  | killToStart =>
      rw [applyEdit]
      subst hb hkl
      rw [drop_at_cursor]
      exact ⟨[], r, by simp, ValidUtf8.nil, hr, rfl⟩
  | killToEnd =>
      rw [applyEdit]
      subst hb hkl
      rw [take_at_cursor]
      exact ⟨l, [], by simp, hl, ValidUtf8.nil, rfl⟩
  | transpose =>
      rw [applyEdit]
      split
      · next hcond =>
          obtain ⟨hp01, hp1k⟩ := hcond
          have hk : 0 < k := by
            rcases Nat.eq_zero_or_pos k with h0 | h0
            · subst h0; simp only [prevB] at hp1k; omega
            · exact h0
          obtain ⟨l1, c2, r2, hb2, hl1, hc2, hr2, hk2, hp1⟩ :=
            bufOk_prev_decomp ⟨l, r, hb, hl, hr, hkl⟩ hk
          rw [hp1] at hp01 hp1k ⊢
          have hl1ne : 0 < l1.length := by
            rcases Nat.eq_zero_or_pos l1.length with h0 | h0
            · exfalso
              rw [h0] at hp01
              simp only [prevB] at hp01
              omega
            · exact h0
          have hbl1 : BufOk b l1.length :=
            ⟨l1, utf8Encode c2 ++ r2, hb2, hl1, ValidUtf8.cons c2 r2 hc2 hr2, rfl⟩
          obtain ⟨l0, c1, r1, hb3, hl0, hc1, hr1, hk3, hp0⟩ :=
            bufOk_prev_decomp hbl1 hl1ne
          rw [hp0]
          -- identify r1 with the remainder after the first encoding
          have hll : l1 = l0 ++ utf8Encode c1 := by
            have h1 : b.take l1.length = l1 := by rw [hb2]; exact take_at_cursor l1 _
            have h2 : b.take l1.length = l0 ++ utf8Encode c1 := by
              rw [hb3, ← List.append_assoc]
              have hlen : (l0 ++ utf8Encode c1).length = l1.length := by simp [hk3]
              rw [← hlen]
              exact take_at_cursor _ r1
            rw [← h1, h2]
          have hr1eq : r1 = utf8Encode c2 ++ r2 := by
            have h1 : b.drop l1.length = utf8Encode c2 ++ r2 := by
              rw [hb2]; exact drop_at_cursor l1 _
            have h2 : b.drop l1.length = r1 := by
              rw [hb3, ← List.append_assoc]
              have hlen : (l0 ++ utf8Encode c1).length = l1.length := by simp [hk3]
              rw [← hlen]
              exact drop_at_cursor _ r1
            rw [← h1, h2]
          have hslice2 : slice b l1.length k = utf8Encode c2 := by
            unfold slice
            rw [hb2, drop_at_cursor, hk2]
            have : l1.length + (utf8Encode c2).length - l1.length = (utf8Encode c2).length := by
              omega
            rw [this]
            exact take_at_cursor _ r2
          have hslice1 : slice b l0.length l1.length = utf8Encode c1 := by
            unfold slice
            rw [hb3, drop_at_cursor, hk3]
            have : l0.length + (utf8Encode c1).length - l0.length = (utf8Encode c1).length := by
              omega
            rw [this, hr1eq]
            exact take_at_cursor _ _
          have htake : b.take l0.length = l0 := by rw [hb3]; exact take_at_cursor l0 _
          have hdrop : b.drop k = r2 := by
            rw [hb2, ← List.append_assoc, hk2]
            have hlen : (l1 ++ utf8Encode c2).length = l1.length + (utf8Encode c2).length := by
              simp
            rw [← hlen]
            exact drop_at_cursor _ r2
          rw [htake, hdrop, hslice1, hslice2]
          refine ⟨l0 ++ utf8Encode c2 ++ utf8Encode c1, r2, by simp, ?_, hr2, ?_⟩
          · exact validUtf8_append (validUtf8_append hl0 (validUtf8_single hc2))
              (validUtf8_single hc1)
          · rw [hk2, hk3]; simp; omega
      · exact ⟨l, r, hb, hl, hr, hkl⟩
  | wordLeft =>
      rw [applyEdit]
      exact wordLeftPos_bufOk ⟨l, r, hb, hl, hr, hkl⟩
  | wordRight =>
      rw [applyEdit]
      exact wordRightPos_bufOk ⟨l, r, hb, hl, hr, hkl⟩
  | deleteWordBefore =>
      rw [applyEdit]
      exact bufOk_delete_between (wordLeftPos_bufOk ⟨l, r, hb, hl, hr, hkl⟩)
        ⟨l, r, hb, hl, hr, hkl⟩
  | deleteWordAfter =>
      rw [applyEdit]
      exact bufOk_delete_between ⟨l, r, hb, hl, hr, hkl⟩
        (wordRightPos_bufOk ⟨l, r, hb, hl, hr, hkl⟩)
  | histPrev s =>
      rw [applyEdit]
      split
      · next hv => exact ⟨s, [], by simp, validUtf8B_sound hv, ValidUtf8.nil, rfl⟩
      · exact ⟨l, r, hb, hl, hr, hkl⟩
  | histNext s =>
      rw [applyEdit]
      split
      · next hv => exact ⟨s, [], by simp, validUtf8B_sound hv, ValidUtf8.nil, rfl⟩
      · exact ⟨l, r, hb, hl, hr, hkl⟩
  | searchCommit s =>
      rw [applyEdit]
      split
      · next hv => exact ⟨s, [], by simp, validUtf8B_sound hv, ValidUtf8.nil, rfl⟩
      · exact ⟨l, r, hb, hl, hr, hkl⟩
  | ctrlR => exact ⟨l, r, hb, hl, hr, hkl⟩
  | tabComplete c => exact ⟨l, r, hb, hl, hr, hkl⟩
  | undo => exact ⟨l, r, hb, hl, hr, hkl⟩
  | enter => exact ⟨l, r, hb, hl, hr, hkl⟩
  | ctrlC => exact ⟨l, r, hb, hl, hr, hkl⟩
  | ioError => exact ⟨l, r, hb, hl, hr, hkl⟩

lemma edOk_init : EdOk initEd := ⟨bufOk_nil, by intro s hs; simp [initEd] at hs⟩

lemma stepEd_edOk (st : EditorSt) (e : KeyEvent) (h : EdOk st) : EdOk (stepEd st e) := by
  obtain ⟨hbuf, hundo⟩ := h
  cases e with
  | insert c =>
      rw [stepEd]
      split
      · next hc =>
          refine ⟨?_, ?_⟩
          · have := applyEdit_bufOk (.insert c) st.buf st.cur hbuf
            rw [applyEdit, if_pos hc] at this
            simpa [applyEdit, hc] using this
          · intro s hs
            simp only at hs
            split at hs
            · exact hundo s hs
            · rcases List.mem_cons.mp hs with h1 | h1
              · subst h1; exact hbuf
              · exact hundo s h1
      · exact ⟨hbuf, hundo⟩
  | undo =>
      rw [stepEd]
      rcases hu : st.undo with _ | ⟨⟨b, k⟩, rest⟩
      · exact ⟨hbuf, by simp⟩
      · refine ⟨?_, ?_⟩
        · exact hundo (b, k) (by rw [hu]; simp)
        · intro s hs
          exact hundo s (by rw [hu]; simp only [List.mem_cons]; exact Or.inr hs)
  | enter => exact ⟨hbuf, hundo⟩
  | ctrlC => exact ⟨hbuf, hundo⟩
  | ioError => exact ⟨hbuf, hundo⟩
  | backspace =>
      refine ⟨applyEdit_bufOk _ _ _ hbuf, ?_⟩
      intro s hs
      rcases List.mem_cons.mp hs with h1 | h1
      · subst h1; exact hbuf
      · exact hundo s h1
  | ctrlD =>
      refine ⟨applyEdit_bufOk _ _ _ hbuf, ?_⟩
      intro s hs
      rcases List.mem_cons.mp hs with h1 | h1
      · subst h1; exact hbuf
      · exact hundo s h1
  | killToStart =>
      refine ⟨applyEdit_bufOk _ _ _ hbuf, ?_⟩
      intro s hs
      rcases List.mem_cons.mp hs with h1 | h1
      · subst h1; exact hbuf
      · exact hundo s h1
  | killToEnd =>
      refine ⟨applyEdit_bufOk _ _ _ hbuf, ?_⟩
      intro s hs
      rcases List.mem_cons.mp hs with h1 | h1
      · subst h1; exact hbuf
      · exact hundo s h1
  | transpose =>
      refine ⟨applyEdit_bufOk _ _ _ hbuf, ?_⟩
      intro s hs
      rcases List.mem_cons.mp hs with h1 | h1
      · subst h1; exact hbuf
      · exact hundo s h1
  | deleteWordBefore =>
      refine ⟨applyEdit_bufOk _ _ _ hbuf, ?_⟩
      intro s hs
      rcases List.mem_cons.mp hs with h1 | h1
      · subst h1; exact hbuf
      · exact hundo s h1
  | deleteWordAfter =>
      refine ⟨applyEdit_bufOk _ _ _ hbuf, ?_⟩
      intro s hs
      rcases List.mem_cons.mp hs with h1 | h1
      · subst h1; exact hbuf
      · exact hundo s h1
  | histPrev s0 =>
      refine ⟨applyEdit_bufOk _ _ _ hbuf, ?_⟩
      intro s hs
      rcases List.mem_cons.mp hs with h1 | h1
      · subst h1; exact hbuf
      · exact hundo s h1
  | histNext s0 =>
      refine ⟨applyEdit_bufOk _ _ _ hbuf, ?_⟩
      intro s hs
      rcases List.mem_cons.mp hs with h1 | h1
      · subst h1; exact hbuf
      · exact hundo s h1
  | searchCommit s0 =>
      refine ⟨applyEdit_bufOk _ _ _ hbuf, ?_⟩
      intro s hs
      rcases List.mem_cons.mp hs with h1 | h1
      · subst h1; exact hbuf
      · exact hundo s h1
  | tabComplete c =>
      rw [stepEd]
      split
      · next hfit =>
          refine ⟨applyCompletion_bufOk st c hbuf hfit, ?_⟩
          intro s hs
          rcases List.mem_cons.mp hs with h1 | h1
          · subst h1; exact hbuf
          · exact hundo s h1
      · exact ⟨hbuf, hundo⟩
  | ctrlR => exact ⟨applyEdit_bufOk _ _ _ hbuf, hundo⟩
  | left => exact ⟨applyEdit_bufOk _ _ _ hbuf, hundo⟩
  | right => exact ⟨applyEdit_bufOk _ _ _ hbuf, hundo⟩
  | home => exact ⟨applyEdit_bufOk _ _ _ hbuf, hundo⟩
  | endKey => exact ⟨applyEdit_bufOk _ _ _ hbuf, hundo⟩
  | wordLeft => exact ⟨applyEdit_bufOk _ _ _ hbuf, hundo⟩
  | wordRight => exact ⟨applyEdit_bufOk _ _ _ hbuf, hundo⟩

lemma replay_edOk (st : EditorSt) (es : List KeyEvent) (h : EdOk st) :
    EdOk (replay st es) := by
  induction es generalizing st with
  | nil => exact h
  | cons e es ih => exact ih (stepEd st e) (stepEd_edOk st e h)

/-- Claim C2: for every sequence of key events replayed against the editor
from its initial state, the edit buffer remains valid UTF-8 and the cursor
remains on a code-point boundary, clamped to `[0, len]`. -/
theorem C2_editbuffer_utf8_cursor_invariant (es : List KeyEvent) :
    ValidUtf8 (replay initEd es).buf ∧
    (∃ l r, (replay initEd es).buf = l ++ r ∧ ValidUtf8 l ∧ ValidUtf8 r ∧
      (replay initEd es).cur = l.length) ∧
    (replay initEd es).cur ≤ (replay initEd es).buf.length := by
  have h := replay_edOk initEd es edOk_init
  obtain ⟨hbuf, _⟩ := h
  refine ⟨bufOk_valid hbuf, ?_, bufOk_le hbuf⟩
  obtain ⟨l, r, h1, h2, h3, h4⟩ := hbuf
  exact ⟨l, r, h1, h2, h3, h4⟩

lemma getLast?_cons_of_ne_nil {α : Type} (x : α) (xs : List α) (h : xs ≠ []) :
    (x :: xs).getLast? = xs.getLast? := by
  rcases xs with _ | ⟨y, ys⟩
  · exact absurd rfl h
  · rfl

lemma undoOk_push (b0 : List Nat) (st : EditorSt) (h : UndoOk b0 st) (bk : List Nat × Nat)
    (hbk : bk.1 = st.buf) :
    ((bk :: st.undo).getLast?).map Prod.fst = some b0 := by
  obtain ⟨h1, h2, _⟩ := h
  rcases hu : st.undo with _ | ⟨y, ys⟩
  · have hb := h1 hu
    rcases bk with ⟨bb, kk⟩
    simp only at hbk
    simp only [List.getLast?_singleton]
    rw [hbk, hb]
    rfl
  · have h2' := h2 (by rw [hu]; simp)
    rw [hu] at h2'
    rw [getLast?_cons_of_ne_nil _ _ (by simp)]
    exact h2'

lemma stepEd_mutating_eq (st : EditorSt) (e : KeyEvent) (h : isMutating e = true) :
    stepEd st e = ⟨(applyEdit e st.buf st.cur).1, (applyEdit e st.buf st.cur).2,
      (st.buf, st.cur) :: st.undo, false⟩ := by
  cases e <;> first | rfl | simp [isMutating] at h

lemma stepEd_nav_eq (st : EditorSt) (e : KeyEvent) (h : isNavigation e = true) :
    stepEd st e = ⟨(applyEdit e st.buf st.cur).1, (applyEdit e st.buf st.cur).2,
      st.undo, false⟩ := by
  cases e <;> first | rfl | simp [isNavigation] at h

lemma applyEdit_nav_buf (st : EditorSt) (e : KeyEvent) (h : isNavigation e = true) :
    (applyEdit e st.buf st.cur).1 = st.buf := by
  cases e
  case left => rfl
  case right => rw [applyEdit]; split <;> rfl
  case home => rfl
  case endKey => rfl
  case wordLeft => rfl
  case wordRight => rfl
  all_goals simp [isNavigation] at h

lemma stepEd_undoOk_mut (b0 : List Nat) (st : EditorSt) (e : KeyEvent)
    (hmut : isMutating e = true) (h : UndoOk b0 st) : UndoOk b0 (stepEd st e) := by
  rw [stepEd_mutating_eq st e hmut]
  exact ⟨fun hu => by simp at hu, fun _ => undoOk_push b0 st h (st.buf, st.cur) rfl,
    fun _ => by simp⟩

lemma stepEd_undoOk_nav (b0 : List Nat) (st : EditorSt) (e : KeyEvent)
    (hnav : isNavigation e = true) (h : UndoOk b0 st) : UndoOk b0 (stepEd st e) := by
  obtain ⟨h1, h2, h3⟩ := h
  rw [stepEd_nav_eq st e hnav]
  refine ⟨fun hu => ?_, fun hne => h2 hne, fun hco => by simp at hco⟩
  rw [applyEdit_nav_buf st e hnav]
  exact h1 hu

lemma stepEd_undoOk (b0 : List Nat) (st : EditorSt) (e : KeyEvent)
    (h : UndoOk b0 st) : UndoOk b0 (stepEd st e) := by
  obtain ⟨h1, h2, h3⟩ := h
  cases e with
  | insert c =>
      rw [stepEd]
      split
      · next hc =>
          rcases Bool.eq_false_or_eq_true st.coalescing with hco | hco
          · refine ⟨?_, ?_, ?_⟩ <;> simp only [hco, if_true]
            · intro hu; exact absurd hu (h3 hco)
            · intro _; exact h2 (h3 hco)
            · intro _; exact h3 hco
          · refine ⟨?_, ?_, ?_⟩ <;> simp only [hco, Bool.false_eq_true, if_false]
            · intro hu; simp at hu
            · intro _; exact undoOk_push b0 st ⟨h1, h2, h3⟩ (st.buf, st.cur) rfl
            · intro _; simp
      · exact ⟨h1, h2, h3⟩
  | undo =>
      rw [stepEd]
      rcases hu : st.undo with _ | ⟨⟨b, k⟩, rest⟩
      · exact ⟨fun _ => h1 hu, fun hne => by simp at hne, fun hco => by simp at hco⟩
      · change UndoOk b0 ⟨b, k, rest, false⟩
        refine ⟨?_, ?_, ?_⟩
        · intro hrest
          have hrest' : rest = [] := hrest
          have h2' := h2 (by rw [hu]; simp)
          rw [hu, hrest'] at h2'
          simp only [List.getLast?_singleton] at h2'
          have hmap : Option.map Prod.fst (some (b, k)) = some b := rfl
          rw [hmap] at h2'
          exact Option.some.inj h2'
        · intro hrest
          have hrest' : rest ≠ [] := hrest
          have h2' := h2 (by rw [hu]; simp)
          rw [hu, getLast?_cons_of_ne_nil _ _ hrest'] at h2'
          exact h2'
        · intro hco
          have hco' : false = true := hco
          simp at hco'
  | enter => exact ⟨h1, h2, h3⟩
  | ctrlC => exact ⟨h1, h2, h3⟩
  | ioError => exact ⟨h1, h2, h3⟩
  | backspace => exact stepEd_undoOk_mut b0 st _ rfl ⟨h1, h2, h3⟩
  | ctrlD => exact stepEd_undoOk_mut b0 st _ rfl ⟨h1, h2, h3⟩
  | killToStart => exact stepEd_undoOk_mut b0 st _ rfl ⟨h1, h2, h3⟩
  | killToEnd => exact stepEd_undoOk_mut b0 st _ rfl ⟨h1, h2, h3⟩
  | deleteWordBefore => exact stepEd_undoOk_mut b0 st _ rfl ⟨h1, h2, h3⟩
  | deleteWordAfter => exact stepEd_undoOk_mut b0 st _ rfl ⟨h1, h2, h3⟩
  | transpose => exact stepEd_undoOk_mut b0 st _ rfl ⟨h1, h2, h3⟩
  | histPrev s => exact stepEd_undoOk_mut b0 st _ rfl ⟨h1, h2, h3⟩
  | histNext s => exact stepEd_undoOk_mut b0 st _ rfl ⟨h1, h2, h3⟩
  | searchCommit s => exact stepEd_undoOk_mut b0 st _ rfl ⟨h1, h2, h3⟩
  | tabComplete c =>
      rw [stepEd]
      split
      · exact ⟨fun hu => by simp at hu,
          fun _ => undoOk_push b0 st ⟨h1, h2, h3⟩ (st.buf, st.cur) rfl,
          fun _ => by simp⟩
      · exact ⟨h1, h2, h3⟩
  | ctrlR =>
      have hst : stepEd st .ctrlR = ⟨st.buf, st.cur, st.undo, false⟩ := rfl
      rw [hst]
      exact ⟨fun hu => h1 hu, fun hne => h2 hne, fun hco => by simp at hco⟩
  | left => exact stepEd_undoOk_nav b0 st _ rfl ⟨h1, h2, h3⟩
  | right => exact stepEd_undoOk_nav b0 st _ rfl ⟨h1, h2, h3⟩
  | home => exact stepEd_undoOk_nav b0 st _ rfl ⟨h1, h2, h3⟩
  | endKey => exact stepEd_undoOk_nav b0 st _ rfl ⟨h1, h2, h3⟩
  | wordLeft => exact stepEd_undoOk_nav b0 st _ rfl ⟨h1, h2, h3⟩
  | wordRight => exact stepEd_undoOk_nav b0 st _ rfl ⟨h1, h2, h3⟩

lemma undoAllAux_buf (stack : List (List Nat × Nat)) (st : EditorSt) (b0 : List Nat)
    (hstack : st.undo = stack) (h : UndoOk b0 st) : (undoAllAux stack st).buf = b0 := by
  induction stack generalizing st with
  | nil =>
      rw [undoAllAux]
      exact h.1 hstack
  | cons bk rest ih =>
      rcases bk with ⟨b, k⟩
      rw [undoAllAux]
      apply ih ⟨b, k, rest, false⟩ rfl
      obtain ⟨h1, h2, _⟩ := h
      refine ⟨?_, ?_, ?_⟩
      · intro hrest
        have hrest' : rest = [] := hrest
        have h2' := h2 (by rw [hstack]; simp)
        rw [hstack, hrest'] at h2'
        simp only [List.getLast?_singleton] at h2'
        have hmap : Option.map Prod.fst (some (b, k)) = some b := rfl
        rw [hmap] at h2'
        exact Option.some.inj h2'
      · intro hrest
        have hrest' : rest ≠ [] := hrest
        have h2' := h2 (by rw [hstack]; simp)
        rw [hstack, getLast?_cons_of_ne_nil _ _ hrest'] at h2'
        exact h2'
      · intro hco
        have hco' : false = true := hco
        simp at hco'

lemma replay_undoOk (b0 : List Nat) (st : EditorSt) (es : List KeyEvent)
    (h : UndoOk b0 st) : UndoOk b0 (replay st es) := by
  induction es generalizing st with
  | nil => exact h
  | cons e es ih => exact ih (stepEd st e) (stepEd_undoOk b0 st e h)

/-- Claim C6: for every editing sequence applied to an initial buffer,
applying undo until the undo stack is exhausted restores the buffer to the
initial buffer. -/
theorem C6_undo_all_restores_initial (b0 : List Nat) (k0 : Nat) (es : List KeyEvent) :
    (undoAll (replay ⟨b0, k0, [], false⟩ es)).buf = b0 := by
  have hinit : UndoOk b0 ⟨b0, k0, [], false⟩ :=
    ⟨fun _ => rfl, fun hne => absurd rfl hne, fun hco => by simp at hco⟩
  have h := replay_undoOk b0 _ es hinit
  exact undoAllAux_buf _ _ b0 rfl h

lemma getLast?_some_mem {α : Type} {l : List α} {x : α} (h : l.getLast? = some x) :
    x ∈ l := by
  obtain ⟨hne, hx⟩ := List.mem_getLast?_eq_getLast (show x ∈ l.getLast? from h)
  rw [hx]
  exact List.getLast_mem hne

lemma getLast?_drop_eq {α : Type} (l : List α) (k : Nat) (hk : k < l.length) :
    (l.drop k).getLast? = l.getLast? := by
  rw [List.getLast?_eq_getElem?, List.getLast?_eq_getElem?, List.getElem?_drop]
  congr 1
  rw [List.length_drop]
  omega

/-- After an `add` into a store with positive capacity, the most recent entry
is the one just added. -/
lemma rp_history_add_getLast (h : History) (x : List Nat) (hcap : 0 < h.maxEntries) :
    (rp_history_add h x).entries.getLast? = some x := by
  rw [rp_history_add]
  split
  · next hc => exact hc.2
  · next hc =>
      simp only
      rw [getLast?_drop_eq]
      · exact List.getLast?_concat h.entries
      · rw [List.length_append]
        simp
        omega

/-- Claim C4: with duplicates disabled, `add(x); add(x)` leaves a single
trailing `x` (the second add is a no-op); with duplicates enabled the store
ends with two trailing copies of `x`. -/
theorem C4_history_duplicate_policy (h : History) (x : List Nat)
    (hcap : 0 < h.maxEntries) :
    (h.allowDups = false →
      rp_history_add (rp_history_add h x) x = rp_history_add h x ∧
      (rp_history_add h x).entries.getLast? = some x ∧
      (h.entries.getLast? ≠ some x →
        ∃ es, (rp_history_add (rp_history_add h x) x).entries = es ++ [x] ∧
          es.getLast? ≠ some x)) ∧
    (h.allowDups = true → 2 ≤ h.maxEntries →
      ∃ es, (rp_history_add (rp_history_add h x) x).entries = es ++ [x, x]) := by
  constructor
  · intro hdup
    have hlast := rp_history_add_getLast h x hcap
    have hnoop : rp_history_add (rp_history_add h x) x = rp_history_add h x := by
      rw [rp_history_add]
      rw [if_pos]
      constructor
      · show (rp_history_add h x).allowDups = false
        rw [rp_history_add]
        split
        · exact hdup
        · exact hdup
      · exact hlast
    refine ⟨hnoop, hlast, ?_⟩
    intro hne
    rw [hnoop]
    rw [rp_history_add, if_neg (by intro hcond; exact hne hcond.2)]
    simp only
    have hk : (h.entries ++ [x]).length - h.maxEntries ≤ h.entries.length := by
      rw [List.length_append]; simp; omega
    rw [List.drop_append_of_le_length hk]
    refine ⟨h.entries.drop ((h.entries ++ [x]).length - h.maxEntries), rfl, ?_⟩
    rcases Nat.lt_or_ge ((h.entries ++ [x]).length - h.maxEntries) h.entries.length
        with hlt | hge
    · rw [getLast?_drop_eq _ _ hlt]
      exact hne
    · rw [List.drop_eq_nil_of_le hge]
      simp
  · intro hdup hcap2
    have h1 : ∃ es1, (rp_history_add h x).entries = es1 ++ [x] := by
      rw [rp_history_add]
      split
      · next hc => rw [hdup] at hc; simp at hc
      · refine ⟨(h.entries ++ [x]).drop ((h.entries ++ [x]).length - h.maxEntries)
          |>.dropLast, ?_⟩
        simp only
        have hk : (h.entries ++ [x]).length - h.maxEntries ≤ h.entries.length := by
          rw [List.length_append]; simp; omega
        rw [List.drop_append_of_le_length hk]
        rw [List.dropLast_append_of_ne_nil _ (by simp)]
        simp
    obtain ⟨es1, hes1⟩ := h1
    have hdup1 : (rp_history_add h x).allowDups = true := by
      rw [rp_history_add]
      split
      · exact hdup
      · exact hdup
    have hcapeq : (rp_history_add h x).maxEntries = h.maxEntries := by
      rw [rp_history_add]
      split
      · rfl
      · rfl
    rw [rp_history_add]
    rw [if_neg (by rw [hdup1]; simp)]
    simp only [hes1, hcapeq]
    have hlen : (es1 ++ [x] ++ [x]).length = es1.length + 2 := by simp
    have hk2 : (es1 ++ [x] ++ [x]).length - h.maxEntries ≤ es1.length := by
      rw [hlen]; omega
    rw [List.append_assoc] at hk2 ⊢
    have hxx : [x] ++ [x] = [x, x] := rfl
    rw [hxx] at hk2 ⊢
    refine ⟨es1.drop ((es1 ++ [x, x]).length - h.maxEntries), ?_⟩
    exact List.drop_append_of_le_length (by simpa using hk2)

lemma rp_history_add_flags (h : History) (x : List Nat) :
    (rp_history_add h x).allowDups = h.allowDups ∧
    (rp_history_add h x).maxEntries = h.maxEntries := by
  rw [rp_history_add]
  split
  · exact ⟨rfl, rfl⟩
  · exact ⟨rfl, rfl⟩

/-- The fold of adds preserves the store flags and capacity. -/
lemma addAll_flags (C : Nat) (d : Bool) (e0 : List (List Nat)) (xs : List (List Nat)) :
    ∃ e1, xs.foldl rp_history_add ⟨e0, C, d⟩ = ⟨e1, C, d⟩ := by
  induction xs generalizing e0 with
  | nil => exact ⟨e0, rfl⟩
  | cons x xs ih =>
      simp only [List.foldl_cons]
      have hx : ∃ e1, rp_history_add ⟨e0, C, d⟩ x = ⟨e1, C, d⟩ := by
        rw [rp_history_add]
        split
        · exact ⟨e0, rfl⟩
        · exact ⟨_, rfl⟩
      obtain ⟨e1, he1⟩ := hx
      rw [he1]
      exact ih e1

/-- The fold of distinct adds into an initially empty store of capacity `C`
retains exactly the most recent `C` entries, in order. -/
lemma addAll_entries (C : Nat) (hC : 0 < C) (xs : List (List Nat)) (hnd : xs.Nodup) :
    (xs.foldl rp_history_add ⟨[], C, false⟩).entries = xs.drop (xs.length - C) := by
  induction xs using List.reverseRecOn with
  | nil => simp
  | append_singleton ys x ih =>
      have hndys : ys.Nodup := hnd.of_append_left
      have hxys : x ∉ ys := by
        intro hmem
        have hdisj := List.disjoint_of_nodup_append hnd
        exact hdisj hmem (by simp)
      have ihys := ih hndys
      rw [List.foldl_append]
      simp only [List.foldl_cons, List.foldl_nil]
      obtain ⟨e1, he1⟩ := addAll_flags C false [] ys
      rw [he1]
      rw [he1] at ihys
      simp only at ihys
      subst ihys
      rw [rp_history_add]
      rw [if_neg (by
        intro hcond
        have hlx := hcond.2
        simp only at hlx
        rcases Nat.lt_or_ge (ys.length - C) ys.length with hlt | hge
        · rw [getLast?_drop_eq ys _ hlt] at hlx
          exact hxys (getLast?_some_mem hlx)
        · rw [List.drop_eq_nil_of_le hge] at hlx
          simp at hlx)]
      simp only
      rcases Nat.lt_or_ge ys.length C with hlt | hge
      · have h0 : ys.length - C = 0 := by omega
        rw [h0, List.drop_zero]
      · have hlen1 : (ys.drop (ys.length - C)).length = C := by
          rw [List.length_drop]; omega
        have hk : (ys.drop (ys.length - C) ++ [x]).length - C = 1 := by
          rw [List.length_append, hlen1]; simp
        rw [hk]
        have hd1 : (ys.drop (ys.length - C) ++ [x]).drop 1
            = (ys.drop (ys.length - C)).drop 1 ++ [x] :=
          List.drop_append_of_le_length (by rw [hlen1]; omega)
        rw [hd1, List.drop_drop]
        have harith : ys.length - C + 1 = (ys ++ [x]).length - C := by
          rw [List.length_append]; simp; omega
        rw [harith]
        have hk2 : (ys ++ [x]).length - C ≤ ys.length := by
          rw [List.length_append]; simp; omega
        rw [List.drop_append_of_le_length hk2]

/-- Claim C5: for capacity `C > 0` and any sequence of distinct adds into an
empty store, the store ends with exactly `min N C` entries, and those are the
last `min N C` entries added, in order. -/
theorem C5_history_capacity_bound (C : Nat) (hC : 0 < C) (xs : List (List Nat))
    (hnd : xs.Nodup) :
    (xs.foldl rp_history_add ⟨[], C, false⟩).entries = xs.drop (xs.length - C) ∧
    (xs.foldl rp_history_add ⟨[], C, false⟩).entries.length = min xs.length C := by
  have h := addAll_entries C hC xs hnd
  refine ⟨h, ?_⟩
  rw [h, List.length_drop]
  omega

/-- Witness for C4 at a concrete store and entry. -/
theorem C4_history_duplicate_policy_witness :
    (rp_history_add (rp_history_add ⟨[], 5, false⟩ [97]) [97]
        = rp_history_add ⟨[], 5, false⟩ [97] ∧
      (rp_history_add ⟨[], 5, false⟩ [97]).entries.getLast? = some [97]) ∧
    (∃ es, (rp_history_add (rp_history_add ⟨[], 5, false⟩ [97]) [97]).entries
        = es ++ [[97]] ∧ es.getLast? ≠ some [97]) ∧
    (∃ es, (rp_history_add (rp_history_add ⟨[], 5, true⟩ [97]) [97]).entries
        = es ++ [[97], [97]]) := by
  have hd := (C4_history_duplicate_policy ⟨[], 5, false⟩ [97] (by decide)).1 rfl
  exact ⟨⟨hd.1, hd.2.1⟩, hd.2.2 (by decide),
    (C4_history_duplicate_policy ⟨[], 5, true⟩ [97] (by decide)).2 rfl (by decide)⟩

/-- Witness for C5 at capacity 2 with three distinct adds. -/
theorem C5_history_capacity_bound_witness :
    ([[97], [98], [99]].foldl rp_history_add ⟨[], 2, false⟩).entries
        = [[97], [98], [99]].drop ([[97], [98], [99]].length - 2) ∧
    ([[97], [98], [99]].foldl rp_history_add ⟨[], 2, false⟩).entries.length
        = min [[97], [98], [99]].length 2 :=
  C5_history_capacity_bound 2 (by decide) [[97], [98], [99]] (by decide)

lemma rlLoop_mode (saved : TermMode) (t : Terminal) (st : EditorSt) (h : History)
    (es : List KeyEvent) : ((rlLoop saved t st h es).2.1).mode = saved := by
  induction es generalizing t st h with
  | nil => rfl
  | cons e es ih =>
      cases e with
      | enter => rfl
      | ctrlC => rfl
      | ioError => rfl
      | ctrlD =>
          rw [rlLoop]
          split
          · rfl
          · exact ih _ _ _
      | insert c => exact ih _ _ _
      | backspace => exact ih _ _ _
      | left => exact ih _ _ _
      | right => exact ih _ _ _
      | home => exact ih _ _ _
      | endKey => exact ih _ _ _
      | wordLeft => exact ih _ _ _
      | wordRight => exact ih _ _ _
      | killToStart => exact ih _ _ _
      | killToEnd => exact ih _ _ _
      | deleteWordBefore => exact ih _ _ _
      | deleteWordAfter => exact ih _ _ _
      | transpose => exact ih _ _ _
      | histPrev s => exact ih _ _ _
      | histNext s => exact ih _ _ _
      | ctrlR => exact ih _ _ _
      | searchCommit s => exact ih _ _ _
      | tabComplete c => exact ih _ _ _
      | undo => exact ih _ _ _

/-- Claim C1: for every exit path of a readline call (commit, cancel via
Ctrl-C, EOF via Ctrl-D on an empty buffer, error, or exhausted input), the
terminal mode flags observed on return equal those observed immediately
before the call. -/
theorem C1_terminal_mode_restored (t : Terminal) (h : History) (es : List KeyEvent) :
    ((rp_readline t h es).2.1).mode = t.mode :=
  rlLoop_mode t.mode _ initEd h es

lemma rlLoop_committed_enter (saved : TermMode) (t : Terminal) (st : EditorSt)
    (h : History) (es : List KeyEvent) (s : List Nat)
    (hres : (rlLoop saved t st h es).1 = .committed s) : KeyEvent.enter ∈ es := by
  induction es generalizing t st h with
  | nil => exact absurd hres (by rw [rlLoop]; simp)
  | cons e es ih =>
      cases e with
      | enter => exact List.mem_cons_self _ _
      | ctrlC => exact absurd hres (by rw [rlLoop]; simp)
      | ioError => exact absurd hres (by rw [rlLoop]; simp)
      | ctrlD =>
          rw [rlLoop] at hres
          split at hres
          · exact absurd hres (by simp)
          · exact List.mem_cons_of_mem _ (ih _ _ _ hres)
      | insert c => exact List.mem_cons_of_mem _ (ih _ _ _ hres)
      | backspace => exact List.mem_cons_of_mem _ (ih _ _ _ hres)
      | left => exact List.mem_cons_of_mem _ (ih _ _ _ hres)
      | right => exact List.mem_cons_of_mem _ (ih _ _ _ hres)
      | home => exact List.mem_cons_of_mem _ (ih _ _ _ hres)
      | endKey => exact List.mem_cons_of_mem _ (ih _ _ _ hres)
      | wordLeft => exact List.mem_cons_of_mem _ (ih _ _ _ hres)
      | wordRight => exact List.mem_cons_of_mem _ (ih _ _ _ hres)
      | killToStart => exact List.mem_cons_of_mem _ (ih _ _ _ hres)
      | killToEnd => exact List.mem_cons_of_mem _ (ih _ _ _ hres)
      | deleteWordBefore => exact List.mem_cons_of_mem _ (ih _ _ _ hres)
      | deleteWordAfter => exact List.mem_cons_of_mem _ (ih _ _ _ hres)
      | transpose => exact List.mem_cons_of_mem _ (ih _ _ _ hres)
      | histPrev s => exact List.mem_cons_of_mem _ (ih _ _ _ hres)
      | histNext s => exact List.mem_cons_of_mem _ (ih _ _ _ hres)
      | ctrlR => exact List.mem_cons_of_mem _ (ih _ _ _ hres)
      | searchCommit s => exact List.mem_cons_of_mem _ (ih _ _ _ hres)
      | tabComplete c => exact List.mem_cons_of_mem _ (ih _ _ _ hres)
      | undo => exact List.mem_cons_of_mem _ (ih _ _ _ hres)

/-- Claim C3: a readline call returns an owned string (the buffer contents)
exactly when the user commits with Enter; Ctrl-C yields the distinct
cancelled result carrying no value and leaves the history untouched; Ctrl-D
on an empty buffer yields the distinct end-of-input result carrying no
value. -/
theorem C3_readline_result_classification :
    (∀ saved t st h es,
      (rlLoop saved t st h (KeyEvent.enter :: es)).1 = .committed st.buf) ∧
    (∀ saved t st h es,
      (rlLoop saved t st h (KeyEvent.ctrlC :: es)).1 = .cancelled ∧
      (rlLoop saved t st h (KeyEvent.ctrlC :: es)).2.2 = h) ∧
    (∀ t h es, (rp_readline t h (KeyEvent.ctrlC :: es)).2.2 = h) ∧
    (∀ saved t st h es, st.buf = [] →
      (rlLoop saved t st h (KeyEvent.ctrlD :: es)).1 = .endOfInput) ∧
    (∀ s, (RlResult.committed s).value = some s) ∧
    RlResult.cancelled.value = none ∧
    RlResult.endOfInput.value = none ∧
    (∀ saved t st h es s,
      (rlLoop saved t st h es).1 = .committed s → KeyEvent.enter ∈ es) := by
  refine ⟨fun _ _ _ _ _ => rfl, fun _ _ _ _ _ => ⟨rfl, rfl⟩, fun _ _ _ => rfl,
    ?_, fun _ => rfl, rfl, rfl, rlLoop_committed_enter⟩
  intro saved t st h es hbuf
  rw [rlLoop, if_pos hbuf]

/-- Witness for C3: applies the classification at concrete inputs, in
particular discharging the empty-buffer hypothesis of the Ctrl-D clause. -/
theorem C3_readline_result_classification_witness :
    (rlLoop rawMode ⟨rawMode, []⟩ initEd ⟨[], 5, false⟩ [KeyEvent.ctrlD]).1
        = RlResult.endOfInput ∧
    (rlLoop rawMode ⟨rawMode, []⟩ initEd ⟨[], 5, false⟩ [KeyEvent.enter]).1
        = RlResult.committed initEd.buf ∧
    (rp_readline ⟨⟨false, true⟩, []⟩ ⟨[], 5, false⟩ [KeyEvent.ctrlC]).2.2
        = (⟨[], 5, false⟩ : History) := by
  obtain ⟨h1, h2, h3, h4, h5, h6, h7, h8⟩ := C3_readline_result_classification
  exact ⟨h4 rawMode ⟨rawMode, []⟩ initEd ⟨[], 5, false⟩ [] rfl,
    h1 rawMode ⟨rawMode, []⟩ initEd ⟨[], 5, false⟩ [],
    h3 ⟨⟨false, true⟩, []⟩ ⟨[], 5, false⟩ []⟩

/-- Claim C8: whenever a completion request yields exactly one candidate,
that candidate is inserted immediately with its delete range replaced, no
menu opens (and no beep sounds), and the editor is in editing mode. -/
theorem C8_single_candidate_inserted (st : EditorSt) (c : Completion)
    (hdb : c.deleteBefore ≤ st.cur) (hda : c.deleteAfter ≤ st.buf.length - st.cur) :
    (handleTab st [c]).2.1 = Mode.editing ∧
    (handleTab st [c]).2.2 = false ∧
    (handleTab st [c]).1.buf =
      st.buf.take (st.cur - c.deleteBefore) ++ c.completion ++
        st.buf.drop (st.cur + c.deleteAfter) ∧
    (handleTab st [c]).1.cur = st.cur - c.deleteBefore + c.completion.length := by
  refine ⟨rfl, rfl, ?_, ?_⟩
  · show (applyCompletion st c).buf = _
    rw [applyCompletion]
    simp only [Nat.min_eq_left hdb, Nat.min_eq_left hda]
  · show (applyCompletion st c).cur = _
    rw [applyCompletion]
    simp only [Nat.min_eq_left hdb]

/-- Witness for C8: completing `hel` with single candidate `hello` yields
buffer `hello` with the cursor at its end, in editing mode, without a menu. -/
theorem C8_single_candidate_inserted_witness :
    (handleTab ⟨[104, 101, 108], 3, [], false⟩
        [⟨[104, 101, 108, 108, 111], [104, 101, 108, 108, 111], 3, 0⟩]).2.1
      = Mode.editing ∧
    (handleTab ⟨[104, 101, 108], 3, [], false⟩
        [⟨[104, 101, 108, 108, 111], [104, 101, 108, 108, 111], 3, 0⟩]).1.buf
      = [104, 101, 108, 108, 111] ∧
    (handleTab ⟨[104, 101, 108], 3, [], false⟩
        [⟨[104, 101, 108, 108, 111], [104, 101, 108, 108, 111], 3, 0⟩]).1.cur = 5 := by
  have h := C8_single_candidate_inserted ⟨[104, 101, 108], 3, [], false⟩
    ⟨[104, 101, 108, 108, 111], [104, 101, 108, 108, 111], 3, 0⟩
    (by decide) (by decide)
  exact ⟨h.1, by rw [h.2.2.1]; decide, by rw [h.2.2.2]; decide⟩

/-- Claim C9: an `rp_add_completion_ex` call whose delete ranges fall outside
the current buffer is ignored (the completion set is unchanged) and returns
the stop signal `false`. -/
theorem C9_add_ex_out_of_range (env : CompletionEnv) (d c : List Nat) (db da : Int)
    (h : db < 0 ∨ db > (env.cursor : Int) ∨ da < 0 ∨
      da > (env.input.length : Int) - (env.cursor : Int)) :
    rp_add_completion_ex env d c db da = (env, false) := by
  rw [rp_add_completion_ex, if_pos h]

/-- Witness for C9: a delete-before of 5 against a cursor at byte 2. -/
theorem C9_add_ex_out_of_range_witness :
    rp_add_completion_ex ⟨[104, 101], 2, [], false⟩ [] [120] 5 0
      = (⟨[104, 101], 2, [], false⟩, false) :=
  C9_add_ex_out_of_range ⟨[104, 101], 2, [], false⟩ [] [120] 5 0 (by decide)

lemma unescapeWord_cons (b : Nat) (bs : List Nat) :
    unescapeWord (b :: bs) =
      if b = escapeByte then
        (match bs with
          | [] => []
          | b2 :: bs2 => b2 :: unescapeWord bs2)
      else b :: unescapeWord bs := by
  rw [unescapeWord.eq_def]

lemma unescape_escape (w : List Nat) : unescapeWord (escapeWord w) = w := by
  induction w with
  | nil => rfl
  | cons b bs ih =>
      rw [escapeWord]
      split
      · next hsp =>
          simp only [List.cons_append, List.nil_append]
          rw [unescapeWord_cons, if_pos rfl]
          show b :: unescapeWord (escapeWord bs) = b :: bs
          rw [ih]
      · next hsp =>
          have hb : b ≠ escapeByte := by
            intro h
            apply hsp
            rw [h]
            rw [isSpecialByte]
            simp
          simp only [List.cons_append, List.nil_append]
          rw [unescapeWord_cons, if_neg hb, ih]

lemma extractWord_suffix (l : List Nat) :
    ∃ k, k ≤ l.length ∧ extractWord l = l.drop k := by
  induction l with
  | nil => exact ⟨0, by simp, rfl⟩
  | cons b t ih =>
      rw [extractWord]
      split
      · exact ⟨0, by simp, rfl⟩
      · obtain ⟨k, hk, hdrop⟩ := ih
        exact ⟨k + 1, by simp; omega, by rw [hdrop]; rfl⟩

/-- Claim C7 (amended): the completion word-transform round-trip holds for
unquoted words whose span is exactly the minimal escaping of their unescaped
content: committing the unmodified candidate leaves the buffer text
unchanged.  (For a word governed by an open quote the transform appends the
closing quote, and for a span with unnecessary escapes it re-escapes
minimally, so those spans change; see the counterexample.) -/
theorem C7_word_transform_roundtrip (l w : List Nat)
    (hq : openQuote l = none)
    (hspan : extractWord l = escapeWord w) : replaceWordSpan l = l := by
  obtain ⟨k, hk, hdrop⟩ := extractWord_suffix l
  rw [replaceWordSpan, hq]
  rw [hspan, unescape_escape, ← hspan, hdrop, List.length_drop]
  have hkk : l.length - (l.length - k) = k := by omega
  rw [hkk]
  exact List.take_append_drop k l

/-- Witness for C7 (amended), on the unquoted span `a\ b` whose content is
`a b`. -/
theorem C7_word_transform_roundtrip_witness :
    openQuote [97, 92, 32, 98] = none ∧
    extractWord [97, 92, 32, 98] = escapeWord [97, 32, 98] ∧
    replaceWordSpan [97, 92, 32, 98] = [97, 92, 32, 98] :=
  ⟨by decide, by decide,
    C7_word_transform_roundtrip [97, 92, 32, 98] [97, 32, 98] (by decide) (by decide)⟩

/-- Counterexample to C7 as stated, in both failing dimensions.  Escaping:
for the word span `a\b` (whose escape of `b` is unnecessary) the extracted
word is `ab` and committing the unmodified candidate re-escapes minimally,
yielding `ab`.  Quoting: for the buffer `"a` (an open quoted word) the
candidate is `a` and committing it re-quotes and closes the quote, yielding
`"a"`.  In neither case is the original span preserved. -/
theorem C7_word_transform_roundtrip_counterexample :
    (openQuote [97, 92, 98] = none ∧
      extractWord [97, 92, 98] = [97, 92, 98] ∧
      unescapeWord [97, 92, 98] = [97, 98] ∧
      replaceWordSpan [97, 92, 98] = [97, 98] ∧
      replaceWordSpan [97, 92, 98] ≠ [97, 92, 98]) ∧
    (openQuote [34, 97] = some (34, 0) ∧
      unescapeWord [97] = [97] ∧
      replaceWordSpan [34, 97] = [34, 97, 34] ∧
      replaceWordSpan [34, 97] ≠ [34, 97]) := by decide

/-- A code-point boundary position of a valid byte sequence is either the
end of the sequence or carries a non-continuation byte. -/

lemma boundary_not_cont {s : List Nat} {q : Nat} (h : BufOk s q) (hq : q < s.length) :
    isCont (s.getD q 0) = false := by
  obtain ⟨l, r, rfl, hl, hr, rfl⟩ := h
  have hrne : r ≠ [] := by
    intro h0; subst h0; simp at hq
  rcases hr with _ | ⟨c, r0, hc, hr0⟩
  · exact absurd rfl hrne
  · have h1 : (l ++ (utf8Encode c ++ r0)).getD (l.length + 0) 0
        = (utf8Encode c ++ r0).getD 0 0 := getD_append_right_ofs _ _ _ _
    rw [Nat.add_zero] at h1
    rw [h1, getD_append_left _ _ _ (utf8Encode_length_pos c) _]
    exact utf8Encode_head_not_cont c

/-- No position strictly inside the encoding of a code point is a boundary. -/
lemma interior_not_boundary (l0 : List Nat) (c : Nat) (r : List Nat) (q : Nat)
    (h1 : l0.length < q) (h2 : q < l0.length + (utf8Encode c).length) :
    ¬ BufOk (l0 ++ (utf8Encode c ++ r)) q := by
  intro hb
  have hlen : q < (l0 ++ (utf8Encode c ++ r)).length := by
    simp
    omega
  have hnc := boundary_not_cont hb hlen
  obtain ⟨j, hj⟩ : ∃ j, q = l0.length + j := ⟨q - l0.length, by omega⟩
  subst hj
  have hb1 : (l0 ++ (utf8Encode c ++ r)).getD (l0.length + j) 0
      = (utf8Encode c ++ r).getD j 0 := getD_append_right_ofs _ _ _ _
  have hb2 : (utf8Encode c ++ r).getD j 0 = (utf8Encode c).getD j 0 :=
    getD_append_left _ _ _ (by omega) _
  rw [hb1, hb2] at hnc
  rw [utf8Encode_tail_cont c j (by omega) (by omega)] at hnc
  exact Bool.noConfusion hnc

/-- Claim C10: `rp_prev_char` returns -1 exactly on `pos <= 0` or
`pos > strlen(s)` and `rp_next_char` returns -1 on `pos < 0` or
`pos >= strlen(s)`; otherwise, on a valid UTF-8 string with the position on
a code-point boundary, each returns the byte position of the adjacent
code-point boundary (with no boundary strictly in between). -/
theorem C10_prev_next_char_contract :
    (∀ (s : List Nat) (pos : Int), pos ≤ 0 ∨ pos > (s.length : Int) →
      rp_prev_char s pos = -1) ∧
    (∀ (s : List Nat) (pos : Int), pos < 0 ∨ pos ≥ (s.length : Int) →
      rp_next_char s pos = -1) ∧
    (∀ (s : List Nat) (pos : Int), BufOk s pos.toNat → 0 < pos →
      pos ≤ (s.length : Int) →
      ∃ p : Nat, rp_prev_char s pos = (p : Int) ∧ BufOk s p ∧ p < pos.toNat ∧
        ∀ q : Nat, p < q → q < pos.toNat → ¬ BufOk s q) ∧
    (∀ (s : List Nat) (pos : Int), BufOk s pos.toNat → 0 ≤ pos →
      pos < (s.length : Int) →
      ∃ q : Nat, rp_next_char s pos = (q : Int) ∧ BufOk s q ∧ pos.toNat < q ∧
        ∀ m : Nat, pos.toNat < m → m < q → ¬ BufOk s m) := by
  refine ⟨?_, ?_, ?_, ?_⟩
  · intro s pos h
    rw [rp_prev_char, if_pos h]
  · intro s pos h
    rw [rp_next_char, if_pos h]
  · intro s pos hb hpos hle
    have hk : 0 < pos.toNat := by omega
    obtain ⟨l0, c, r, hs, hl0, hc, hr, hsplit, hprev⟩ := bufOk_prev_decomp hb hk
    refine ⟨l0.length, ?_, ?_, ?_, ?_⟩
    · rw [rp_prev_char, if_neg (by omega), hprev]
    · exact ⟨l0, utf8Encode c ++ r, hs, hl0, ValidUtf8.cons c r hc hr, rfl⟩
    · have := utf8Encode_length_pos c
      omega
    · intro q hq1 hq2
      rw [hs]
      apply interior_not_boundary l0 c r q hq1
      omega
  · intro s pos hb hpos hlt
    have hk : pos.toNat < s.length := by omega
    obtain ⟨l, c, r0, hs, hl, hc, hr0, hsplit, hnext⟩ := bufOk_next_decomp hb hk
    refine ⟨pos.toNat + (utf8Encode c).length, ?_, ?_, ?_, ?_⟩
    · rw [rp_next_char, if_neg (by omega), hnext]
    · refine ⟨l ++ utf8Encode c, r0, by rw [hs, List.append_assoc], ?_, hr0, by simp [hsplit]⟩
      exact validUtf8_append hl (validUtf8_single hc)
    · have := utf8Encode_length_pos c
      omega
    · intro m hm1 hm2
      rw [hs]
      apply interior_not_boundary l c r0 m (by omega) (by omega)

/-- Witness for C10 on the two-code-point string `a` + U+00E9 (bytes
97, 195, 169) at position 1. -/
theorem C10_prev_next_char_contract_witness :
    (∃ p : Nat, rp_prev_char [97, 195, 169] 1 = (p : Int) ∧
      BufOk [97, 195, 169] p ∧ p < (1 : Int).toNat ∧
      ∀ q : Nat, p < q → q < (1 : Int).toNat → ¬ BufOk [97, 195, 169] q) ∧
    (∃ q : Nat, rp_next_char [97, 195, 169] 1 = (q : Int) ∧
      BufOk [97, 195, 169] q ∧ (1 : Int).toNat < q ∧
      ∀ m : Nat, (1 : Int).toNat < m → m < q → ¬ BufOk [97, 195, 169] m) := by
  have h97 : ValidUtf8 [97] := by
    have he : utf8Encode 97 ++ [] = [97] := by decide
    have h := ValidUtf8.cons 97 [] (by decide) ValidUtf8.nil
    rw [he] at h
    exact h
  have h233 : ValidUtf8 [195, 169] := by
    have he : utf8Encode 233 ++ [] = [195, 169] := by decide
    have h := ValidUtf8.cons 233 [] (by decide) ValidUtf8.nil
    rw [he] at h
    exact h
  have hb : BufOk [97, 195, 169] (1 : Int).toNat :=
    ⟨[97], [195, 169], by decide, h97, h233, by decide⟩
  obtain ⟨_, _, hprev, hnext⟩ := C10_prev_next_char_contract
  exact ⟨hprev [97, 195, 169] 1 hb (by decide) (by decide),
    hnext [97, 195, 169] 1 hb (by decide) (by decide)⟩

end Repline
